import Mathlib

/-!
Verification of the canonical-JSON / signature / chat-session core of the
secendhands client (src/client/js/crypto.js, trade.js, chat.js and the
unnamed chat-module variant).

The JavaScript source is shallowly embedded: JSON-like runtime values become
the inductive `Canon.Jval` (numbers are modeled as integers, which matches the
ECMAScript rendering for safe integers — every number this client serializes
is an integer timestamp), strings are Lean strings (code points; the sources
only sort ASCII keys, where code-point order and UTF-16 order coincide),
and fallible operations return `Option`/`Except` with `none`/`.error`
standing for a thrown JavaScript exception.
-/

set_option maxHeartbeats 1000000

namespace Canon

/-- A JSON-like value as handled by `canonicalize` in crypto.js:
null, boolean, number (modeled as an integer), string, array, object
(an insertion-ordered list of key/value pairs, as JavaScript objects are). -/
inductive Jval where
  | jnull
  | jbool (b : Bool)
  | jnum (n : Int)
  | jstr (s : String)
  | jarr (elems : List Jval)
  | jobj (entries : List (String × Jval))
deriving Repr

mutual

/-- Size measure for well-founded recursion over `Jval`. -/
def jsize : Jval → Nat
  | .jnull => 1
  | .jbool _ => 1
  | .jnum _ => 1
  | .jstr _ => 1
  | .jarr l => 1 + jsizeList l
  | .jobj l => 1 + jsizeEntries l

def jsizeList : List Jval → Nat
  | [] => 0
  | x :: xs => 1 + jsize x + jsizeList xs

def jsizeEntries : List (String × Jval) → Nat
  | [] => 0
  | (_, v) :: xs => 1 + jsize v + jsizeEntries xs

end

theorem jsizeEntries_perm {l₁ l₂ : List (String × Jval)} (h : l₁.Perm l₂) :
    jsizeEntries l₁ = jsizeEntries l₂ := by
  induction h with
  | nil => rfl
  | cons x _ ih => cases x; simp [jsizeEntries, ih]
  | swap x y l => cases x; cases y; simp [jsizeEntries]; omega
  | trans _ _ ih₁ ih₂ => omega

/-- Decimal digits of a natural number, most significant first
(the rendering `JSON.stringify` uses for integral numbers). -/
def natToDigits (n : Nat) : List Char :=
  if h : n < 10 then [Char.ofNat (48 + n)]
  else natToDigits (n / 10) ++ [Char.ofNat (48 + n % 10)]
decreasing_by exact Nat.div_lt_self (by omega) (by omega)

/-- Value of a decimal digit string (used only in proofs, to invert `natToDigits`). -/
def digitsVal (l : List Char) : Nat :=
  l.foldl (fun a c => a * 10 + (c.toNat - 48)) 0

/-- `JSON.stringify` rendering of an integral number. -/
def serInt (i : Int) : List Char :=
  if i < 0 then '-' :: natToDigits i.natAbs else natToDigits i.natAbs

/-- Lowercase hexadecimal digit, as produced by `toString(16)`. -/
def hexDigit (n : Nat) : Char :=
  if n < 10 then Char.ofNat (48 + n) else Char.ofNat (87 + n)

/-- Four lowercase hex digits (the `XXXX` of a `\uXXXX` escape). -/
def hex4 (n : Nat) : List Char :=
  [hexDigit (n / 4096 % 16), hexDigit (n / 256 % 16), hexDigit (n / 16 % 16), hexDigit (n % 16)]

/-- `JSON.stringify` escaping of one string character: double quote, backslash
and the named control characters get two-character escapes, the remaining
control characters below U+0020 get a `\uXXXX` escape, everything else is
emitted verbatim. -/
def escChar (c : Char) : List Char :=
  if c = '"' then ['\\', '"']
  else if c = '\\' then ['\\', '\\']
  else if c = Char.ofNat 8 then ['\\', 'b']
  else if c = Char.ofNat 9 then ['\\', 't']
  else if c = Char.ofNat 10 then ['\\', 'n']
  else if c = Char.ofNat 12 then ['\\', 'f']
  else if c = Char.ofNat 13 then ['\\', 'r']
  else if c.toNat < 32 then '\\' :: 'u' :: hex4 c.toNat
  else [c]

/-- `JSON.stringify` escaping of a string body. -/
def escString (s : List Char) : List Char :=
  (s.map escChar).flatten

/-- Order on object entries: compare keys. `Object.keys(obj).sort()` compares
key strings; for the ASCII keys this client produces, JavaScript's UTF-16
code-unit order coincides with Lean's code-point order on `String`. -/
def entryLE (a b : String × Jval) : Prop := a.1 ≤ b.1

instance : DecidableRel entryLE := fun a b => inferInstanceAs (Decidable (a.1 ≤ b.1))

instance : IsTotal (String × Jval) entryLE := ⟨fun a b => le_total a.1 b.1⟩

instance : IsTrans (String × Jval) entryLE := ⟨fun _ _ _ h₁ h₂ => le_trans h₁ h₂⟩

mutual

/-- crypto.js `canonicalize`: primitives via `JSON.stringify`, arrays in
order with comma separators, objects with keys sorted before serialization.
JavaScript objects have unique keys, so iterating the sorted keys and reading
`obj[k]` is, on any wellformed (`wf`) value, the same as serializing the
entry list sorted by key — which is how the object case is written here.
Note the source interpolates the raw key (`"` + k + `":`) without escaping it;
this embedding mirrors that faithfully. -/
def canonicalize : Jval → List Char
  | .jnull => ['n', 'u', 'l', 'l']
  | .jbool true => ['t', 'r', 'u', 'e']
  | .jbool false => ['f', 'a', 'l', 's', 'e']
  | .jnum n => serInt n
  | .jstr s => '"' :: (escString s.data ++ ['"'])
  | .jarr l => '[' :: (canonList l ++ [']'])
  | .jobj l => '{' :: (canonEntries (List.insertionSort entryLE l) ++ ['}'])
termination_by v => jsize v
decreasing_by
  all_goals simp [jsize]
  all_goals rw [jsizeEntries_perm (List.perm_insertionSort entryLE l)]
  all_goals omega

def canonList : List Jval → List Char
  | [] => []
  | [x] => canonicalize x
  | x :: xs => canonicalize x ++ ',' :: canonList xs
termination_by l => jsizeList l
decreasing_by
  all_goals simp [jsize, jsizeList, jsizeEntries]
  all_goals omega

def canonEntries : List (String × Jval) → List Char
  | [] => []
  | [(k, v)] => '"' :: (k.data ++ '"' :: ':' :: canonicalize v)
  | (k, v) :: xs => ('"' :: (k.data ++ '"' :: ':' :: canonicalize v)) ++ ',' :: canonEntries xs
termination_by l => jsizeEntries l
decreasing_by
  all_goals simp [jsize, jsizeList, jsizeEntries]
  all_goals omega

end

mutual

/-- Recursively sort every object's entry list by key. `canonicalize` equals
plain serialization of the normalized value; equality of normalized values is
the structural equality induced by the canonical form. -/
def normalize : Jval → Jval
  | .jnull => .jnull
  | .jbool b => .jbool b
  | .jnum n => .jnum n
  | .jstr s => .jstr s
  | .jarr l => .jarr (normalizeList l)
  | .jobj l => .jobj (List.insertionSort entryLE (normalizeEntries l))

def normalizeList : List Jval → List Jval
  | [] => []
  | x :: xs => normalize x :: normalizeList xs

def normalizeEntries : List (String × Jval) → List (String × Jval)
  | [] => []
  | (k, v) :: xs => (k, normalize v) :: normalizeEntries xs

end

/-- No duplicate keys (JavaScript objects cannot have two identical keys). -/
def nodupKeys : List String → Bool
  | [] => true
  | k :: ks => !ks.contains k && nodupKeys ks

mutual

/-- Wellformed value: every object, recursively, has pairwise distinct keys —
an invariant every runtime JavaScript object satisfies by construction. -/
def wf : Jval → Bool
  | .jnull => true
  | .jbool _ => true
  | .jnum _ => true
  | .jstr _ => true
  | .jarr l => wfList l
  | .jobj l => nodupKeys (l.map Prod.fst) && wfEntries l

def wfList : List Jval → Bool
  | [] => true
  | x :: xs => wf x && wfList xs

def wfEntries : List (String × Jval) → Bool
  | [] => true
  | (_, v) :: xs => wf v && wfEntries xs

end

/-- A key character the `JSON.stringify` escaping would emit verbatim:
not a double quote, not a backslash, not a control character. -/
def safeKeyChar (c : Char) : Bool :=
  c ≠ '"' && c ≠ '\\' && decide (32 ≤ c.toNat)

mutual

/-- Safe value: every object key, recursively, consists of characters that
string escaping leaves unchanged. Since `canonicalize` interpolates keys
unescaped, this is the regime in which its output is unambiguous. -/
def safe : Jval → Bool
  | .jnull => true
  | .jbool _ => true
  | .jnum _ => true
  | .jstr _ => true
  | .jarr l => safeList l
  | .jobj l => safeEntries l

def safeList : List Jval → Bool
  | [] => true
  | x :: xs => safe x && safeList xs

def safeEntries : List (String × Jval) → Bool
  | [] => true
  | (k, v) :: xs => k.data.all safeKeyChar && safe v && safeEntries xs

end

/-- Constructor tag of a value (numbers share one tag regardless of sign). -/
def tagJ : Jval → Nat
  | .jnull => 0
  | .jbool _ => 1
  | .jnum _ => 2
  | .jstr _ => 3
  | .jarr _ => 4
  | .jobj _ => 5

/-- Constructor tag recoverable from the first character of a canonical
serialization; 6 for the delimiter characters, which never start one. -/
def tagOfChar (c : Char) : Nat :=
  if c = 'n' then 0
  else if c = 't' ∨ c = 'f' then 1
  else if c = '-' ∨ c.isDigit then 2
  else if c = '"' then 3
  else if c = '[' then 4
  else if c = '{' then 5
  else 6

/-- The character a two-character escape `\d` stands for, if `d` is one of
the named escapes. -/
def namedDecode : Char → Option Char
  | '"' => some '"'
  | '\\' => some '\\'
  | 'b' => some (Char.ofNat 8)
  | 't' => some (Char.ofNat 9)
  | 'n' => some (Char.ofNat 10)
  | 'f' => some (Char.ofNat 12)
  | 'r' => some (Char.ofNat 13)
  | _ => none

/-- A suffix at which a serialized value may legitimately stop inside a
larger canonical serialization: the end of the output, or a separator or
closer — characters that never begin or continue a serialized value at the
points where this matters. -/
def isBnd : List Char → Prop
  | [] => True
  | c :: _ => c = ',' ∨ c = ']' ∨ c = '}'

end Canon

namespace Crypto

/-- UTF-8 encoding of one code point (what `TextEncoder.encode` does per
character; Lean characters carry no lone surrogates, so the cases agree). -/
def utf8Char (c : Char) : List Nat :=
  let n := c.toNat
  if n < 128 then [n]
  else if n < 2048 then [192 + n / 64, 128 + n % 64]
  else if n < 65536 then [224 + n / 4096, 128 + n / 64 % 64, 128 + n % 64]
  else [240 + n / 262144, 128 + n / 4096 % 64, 128 + n / 64 % 64, 128 + n % 64]

/-- UTF-8 byte sequence of a character list (`new TextEncoder().encode(s)`). -/
def utf8Encode (s : List Char) : List Nat :=
  (s.map utf8Char).flatten

/-- Truncate to a 32-bit word. -/
def w32 (n : Nat) : Nat := n % 4294967296

/-- 32-bit right rotation. -/
def rotr32 (k x : Nat) : Nat := w32 ((x >>> k) ||| (x <<< (32 - k)))

/-- SHA-256 Ch function. -/
def shaCh (x y z : Nat) : Nat := (x &&& y) ^^^ ((x ^^^ 4294967295) &&& z)

/-- SHA-256 Maj function. -/
def shaMaj (x y z : Nat) : Nat := (x &&& y) ^^^ (x &&& z) ^^^ (y &&& z)

/-- SHA-256 big Sigma0. -/
def bigSigma0 (x : Nat) : Nat := rotr32 2 x ^^^ rotr32 13 x ^^^ rotr32 22 x

/-- SHA-256 big Sigma1. -/
def bigSigma1 (x : Nat) : Nat := rotr32 6 x ^^^ rotr32 11 x ^^^ rotr32 25 x

/-- SHA-256 small sigma0. -/
def smallSigma0 (x : Nat) : Nat := rotr32 7 x ^^^ rotr32 18 x ^^^ (x >>> 3)

/-- SHA-256 small sigma1. -/
def smallSigma1 (x : Nat) : Nat := rotr32 17 x ^^^ rotr32 19 x ^^^ (x >>> 10)

/-- The 64 SHA-256 round constants (FIPS 180-4). -/
def shaK : List Nat :=
  [1116352408, 1899447441, 3049323471, 3921009573, 961987163, 1508970993,
   2453635748, 2870763221, 3624381080, 310598401, 607225278, 1426881987,
   1925078388, 2162078206, 2614888103, 3248222580, 3835390401, 4022224774,
   264347078, 604807628, 770255983, 1249150122, 1555081692, 1996064986,
   2554220882, 2821834349, 2952996808, 3210313671, 3336571891, 3584528711,
   113926993, 338241895, 666307205, 773529912, 1294757372, 1396182291,
   1695183700, 1986661051, 2177026350, 2456956037, 2730485921, 2820302411,
   3259730800, 3345764771, 3516065817, 3600352804, 4094571909, 275423344,
   430227734, 506948616, 659060556, 883997877, 958139571, 1322822218,
   1537002063, 1747873779, 1955562222, 2024104815, 2227730452, 2361852424,
   2428436474, 2756734187, 3204031479, 3329325298]

/-- SHA-256 initial hash state (FIPS 180-4). -/
def shaH0 : List Nat :=
  [1779033703, 3144134277, 1013904242, 2773480762,
   1359893119, 2600822924, 528734635, 1541459225]

/-- Eight big-endian bytes of a 64-bit length. -/
def be64 (n : Nat) : List Nat :=
  [n >>> 56 % 256, n >>> 48 % 256, n >>> 40 % 256, n >>> 32 % 256,
   n >>> 24 % 256, n >>> 16 % 256, n >>> 8 % 256, n % 256]

/-- Four big-endian bytes of a 32-bit word. -/
def be32 (n : Nat) : List Nat := [n >>> 24 % 256, n >>> 16 % 256, n >>> 8 % 256, n % 256]

/-- SHA-256 padding: append 0x80, zero bytes to 56 mod 64, then the bit length. -/
def shaPad (msg : List Nat) : List Nat :=
  msg ++ 128 :: List.replicate ((119 - msg.length % 64) % 64) 0 ++ be64 (8 * msg.length)

/-- Group bytes into big-endian 32-bit words. -/
def toWords : List Nat → List Nat
  | b0 :: b1 :: b2 :: b3 :: rest => (b0 * 16777216 + b1 * 65536 + b2 * 256 + b3) :: toWords rest
  | _ => []

/-- Split a word list into 16-word blocks (fuel recursion: every nonempty
step drops 16 words, so `fuel = length` always suffices). -/
def shaBlocksAux : Nat → List Nat → List (List Nat)
  | 0, _ => []
  | _ + 1, [] => []
  | fuel + 1, w :: ws => ((w :: ws).take 16) :: shaBlocksAux fuel ((w :: ws).drop 16)

/-- Split a word list into 16-word blocks. -/
def shaBlocks (ws : List Nat) : List (List Nat) := shaBlocksAux ws.length ws

/-- One step of the SHA-256 message-schedule extension. -/
def schedStep (w : List Nat) : List Nat :=
  w ++ [w32 (smallSigma1 (w.getD (w.length - 2) 0) + w.getD (w.length - 7) 0 +
             smallSigma0 (w.getD (w.length - 15) 0) + w.getD (w.length - 16) 0)]

/-- The full 64-word message schedule of a block. -/
def schedule (block : List Nat) : List Nat := schedStep^[48] block

/-- One SHA-256 compression round on the eight-word working state. -/
def shaRound (st : List Nat) (k w : Nat) : List Nat :=
  match st with
  | [a, b, c, d, e, f, g, h] =>
    let t1 := w32 (h + bigSigma1 e + shaCh e f g + k + w)
    let t2 := w32 (bigSigma0 a + shaMaj a b c)
    [w32 (t1 + t2), a, b, c, w32 (d + t1), e, f, g]
  | _ => st

/-- SHA-256 compression of one block into the hash state. -/
def compress (hs : List Nat) (block : List Nat) : List Nat :=
  let ws := schedule block
  let fin := (shaK.zip ws).foldl (fun st kw => shaRound st kw.1 kw.2) hs
  (hs.zip fin).map (fun p => w32 (p.1 + p.2))

/-- SHA-256 of a byte sequence (FIPS 180-4; this is what
`crypto.subtle.digest("SHA-256", bytes)` computes). -/
def sha256 (msg : List Nat) : List Nat :=
  (((shaBlocks (toWords (shaPad msg))).foldl compress shaH0).map be32).flatten

/-- crypto.js `bufToHex`: lowercase two-digit hex per byte. -/
def bufToHex (bytes : List Nat) : String :=
  ⟨(bytes.map (fun b => [Canon.hexDigit (b / 16), Canon.hexDigit (b % 16)])).flatten⟩

/-- Hex digest of the UTF-8 bytes of a character sequence. -/
def sha256Hex (s : List Char) : String := bufToHex (sha256 (utf8Encode s))

/-- crypto.js `hash`: SHA-256 of the UTF-8 encoding of the canonical JSON
string, rendered as lowercase hex. -/
def hash (data : Canon.Jval) : String := sha256Hex (Canon.canonicalize data)

/-- Value of a base64-alphabet character (`A`–`Z`, `a`–`z`, `0`–`9`, `+`, `/`). -/
def b64Val (c : Char) : Option Nat :=
  let n := c.toNat
  if 65 ≤ n ∧ n ≤ 90 then some (n - 65)
  else if 97 ≤ n ∧ n ≤ 122 then some (n - 71)
  else if 48 ≤ n ∧ n ≤ 57 then some (n + 4)
  else if c = '+' then some 62
  else if c = '/' then some 63
  else none

/-- ASCII whitespace (what forgiving-base64 decoding strips). -/
def isB64Space (c : Char) : Bool :=
  c = ' ' || c = Char.ofNat 9 || c = Char.ofNat 10 || c = Char.ofNat 12 || c = Char.ofNat 13

/-- Strip the up-to-two trailing `=` padding characters when the length is a
multiple of four (the forgiving-base64 rule `atob` implements). -/
def b64StripPad (l : List Char) : List Char :=
  if l.length % 4 ≠ 0 then l
  else match l.reverse with
    | '=' :: '=' :: t => t.reverse
    | '=' :: t => t.reverse
    | _ => l

/-- Reassemble six-bit groups into bytes. -/
def b64Bytes : List Nat → List Nat
  | a :: b :: c :: d :: rest => (a * 4 + b / 16) :: (b % 16 * 16 + c / 4) :: (c % 4 * 64 + d) :: b64Bytes rest
  | [a, b] => [a * 4 + b / 16]
  | [a, b, c] => [a * 4 + b / 16, b % 16 * 16 + c / 4]
  | _ => []

/-- Browser `atob` (forgiving-base64 decode). `none` models the
`InvalidCharacterError` it throws on input that is not valid base64. -/
def atob (s : String) : Option (List Nat) :=
  let d := b64StripPad (s.data.filter (fun c => !isB64Space c))
  if d.length % 4 = 1 then none
  else (d.mapM b64Val).map b64Bytes

/-- crypto.js `base64ToBuf` (via `atob`). -/
def base64ToBuf (b64 : String) : Option (List Nat) := atob b64

/-- Hex value of a character as `parseInt(pair, 16)` would deliver it into a
`Uint8Array` slot: invalid digits make `parseInt` return NaN, which the
typed array stores as 0. -/
def hexVal (c : Char) : Nat :=
  let n := c.toNat
  if 48 ≤ n ∧ n ≤ 57 then n - 48
  else if 97 ≤ n ∧ n ≤ 102 then n - 87
  else if 65 ≤ n ∧ n ≤ 70 then n - 55
  else 0

/-- crypto.js `hexToBuf`: consecutive two-character groups become bytes. -/
def hexPairs : List Char → List Nat
  | a :: b :: rest => (hexVal a * 16 + hexVal b) :: hexPairs rest
  | _ => []

/-- crypto.js `hexToBuf` on a string. -/
def hexToBuf (hex : String) : List Nat := hexPairs hex.data

/-- crypto.js `verify`, with the WebCrypto Ed25519 verification primitive
abstracted as `subtleVerify` (public-key bytes → signature bytes → message
bytes → boolean; per WebCrypto it returns false, and does not throw, for
signatures of the wrong length). The base64 decoding of the public key, the
raw-Ed25519 key import (which requires exactly 32 key bytes), and the base64
decoding of the signature happen in source order before the primitive runs;
`none` models the exception each of those steps can throw. -/
def verify (subtleVerify : List Nat → List Nat → List Nat → Bool)
    (hashHex sigB64 pubKeyB64 : String) : Option Bool :=
  match base64ToBuf pubKeyB64 with
  | none => none
  | some pkBytes =>
    if pkBytes.length ≠ 32 then none
    else match base64ToBuf sigB64 with
      | none => none
      | some sigBytes => some (subtleVerify pkBytes sigBytes (hexToBuf hashHex))

/-- Modulus of the Diffie–Hellman group abstracting X25519: the DH property
used by `deriveChatKey` is commutativity of scalar multiplication, modeled
here as modular exponentiation over a fixed base. -/
def dhP : Nat := 2147483647

/-- Generator of the abstract Diffie–Hellman group (the base point). -/
def dhG : Nat := 7

/-- Public exchange key of a private scalar (X25519 public-key derivation,
abstracted to classic Diffie–Hellman). -/
def dhPub (priv : Nat) : Nat := dhG ^ priv % dhP

/-- `crypto.subtle.deriveBits` for X25519: the shared secret obtained from
one party's private scalar and the other party's public key. -/
def deriveBitsDH (priv pub : Nat) : Nat := pub ^ priv % dhP

/-- Output of the HKDF-SHA256 step of `deriveChatKey`, represented by its
inputs: the shared secret as keying material, the trade id as salt, and the
fixed domain-separation info string. Under the ideal-KDF reading, two outputs
are equal exactly when all three inputs are. -/
structure ChatKeyMat where
  secret : Nat
  salt : String
  info : String
deriving DecidableEq, Repr

/-- crypto.js `deriveChatKey`: X25519 ECDH to a shared secret, then HKDF with
the trade id as salt and "chat-key-derivation" as info. Key import/export and
base64 framing are elided: keys enter the model as scalars. -/
def deriveChatKey (myPriv : Nat) (peerPub : Nat) (tradeId : String) : ChatKeyMat :=
  { secret := deriveBitsDH myPriv peerPub, salt := tradeId, info := "chat-key-derivation" }

end Crypto

namespace Trade

/-- Symbolic Ed25519 signature: `sign(hashHex, privateKey)` is modeled by the
pair of the hex string that was signed and the signing private key — a
Dolev–Yao treatment of the opaque base64 signature bytes. -/
structure EdSig where
  msgHex : String
  signerPriv : String
deriving DecidableEq, Repr

/-- crypto.js `sign`: sign the raw hash with the private key. -/
def edSign (hashHex privKey : String) : EdSig := ⟨hashHex, privKey⟩

/-- crypto.js `verify` at the symbolic level, parameterized by `pubOf`, the
(deterministic) derivation of an Ed25519 public key from its private key:
a signature verifies exactly when it signs this hash and its signer's public
key is the stated one. -/
def edVerify (pubOf : String → String) (hashHex : String) (sig : EdSig) (pubKey : String) : Bool :=
  sig.msgHex == hashHex && pubOf sig.signerPriv == pubKey

/-- The signature bundle trade.js passes around: body, its hash, the
signature over the hash, and the signer's public key (the fields of
`signComplete`'s result and of a `TRADE_COMPLETE_REQUEST`'s `signature`). -/
structure CompletionSig where
  body : Canon.Jval
  hash : String
  signature : EdSig
  pubkey : String

/-- The identity keypair as loaded by `loadIdentityKeyPair`. -/
structure Identity where
  publicKey : String
  privateKey : String
deriving DecidableEq, Repr

/-- The trade document fields `confirmCompleteTrade` consults
(`buyer_pubkey` is null until a buyer joins). -/
structure TradeRec where
  trade_id : String
  seller_pubkey : String
  buyer_pubkey : Option String
deriving DecidableEq, Repr

/-- Error taxonomy of the completion handshake (section 7 of the design):
the source throws `Error` objects whose messages correspond to these cases. -/
inductive TradeErr where
  | integrityError          -- "hash mismatch, suspected tampering"
  | authenticationError     -- "peer signature invalid"
  | localHashMismatch       -- submitComplete: local hash differs from signed hash
  | hashMismatch            -- submitComplete: the two signatures' hashes differ
  | invalidSignature        -- submitComplete: a signature fails verification
  | roleResolutionError     -- confirm: cannot attribute buyer/seller signatures
deriving DecidableEq, Repr

/-- trade.js `signComplete`: build the completion body with the current time
in seconds, hash it, sign the hash. -/
def signComplete (id : Identity) (tradeId : String) (now : Int) : CompletionSig :=
  let body : Canon.Jval := .jobj
    [("trade_id", .jstr tradeId), ("result", .jstr "COMPLETED"), ("timestamp", .jnum now)]
  { body := body, hash := Crypto.hash body,
    signature := edSign (Crypto.hash body) id.privateKey, pubkey := id.publicKey }

/-- trade.js `signCompleteWithBody`: hash and sign a caller-supplied body —
no fresh timestamp is introduced. -/
def signCompleteWithBody (id : Identity) (body : Canon.Jval) : CompletionSig :=
  { body := body, hash := Crypto.hash body,
    signature := edSign (Crypto.hash body) id.privateKey, pubkey := id.publicKey }

/-- trade.js `verifyPeerSignature`, parameterized by the signature
verification primitive `ver` (in the application this is crypto.js `verify`):
recompute the hash of the body and reject with `integrityError` if it
differs from the claimed hash; only then consult `ver` and reject with
`authenticationError` when it fails. -/
def verifyPeerSignature (ver : String → EdSig → String → Bool)
    (body : Canon.Jval) (h : String) (signature : EdSig) (peerPubKey : String) :
    Except TradeErr Unit :=
  if Crypto.hash body ≠ h then .error .integrityError
  else if !ver h signature peerPubKey then .error .authenticationError
  else .ok ()

/-- trade.js `tryHandleTradeCompleteRequest`'s caching step: a peer proposal
is stored (in `window.__pendingPeerSig`) only after `verifyPeerSignature`
succeeds on it. -/
def cachePeerProposal (ver : String → EdSig → String → Bool) (peerSig : CompletionSig) :
    Option CompletionSig :=
  match verifyPeerSignature ver peerSig.body peerSig.hash peerSig.signature peerSig.pubkey with
  | .ok _ => some peerSig
  | .error _ => none

/-- The `POST /trade/complete` payload `submitComplete` builds. -/
structure CompletePayload where
  trade_id : String
  hash : String
  sig_seller : EdSig
  sig_buyer : EdSig

/-- trade.js `submitComplete(tradeId, sigA, sigB)` where `sigA` is passed the
seller signature and `sigB` the buyer signature: recheck `sigA`'s hash
against its body, require both hashes identical, verify both signatures, then
build the relay payload with `sigA.signature` in the `sig_seller` slot and
`sigB.signature` in the `sig_buyer` slot. -/
def submitComplete (pubOf : String → String) (tradeId : String)
    (sigA sigB : CompletionSig) : Except TradeErr CompletePayload :=
  if Crypto.hash sigA.body ≠ sigA.hash then .error .localHashMismatch
  else if sigA.hash ≠ sigB.hash then .error .hashMismatch
  else if !(edVerify pubOf sigA.hash sigA.signature sigA.pubkey &&
            edVerify pubOf sigB.hash sigB.signature sigB.pubkey) then .error .invalidSignature
  else .ok { trade_id := tradeId, hash := sigA.hash,
             sig_seller := sigA.signature, sig_buyer := sigB.signature }

/-- trade.js `submitBothSignatures`: re-verify each bundle with
`verifyPeerSignature`, then submit with the seller bundle as `sigA` and the
buyer bundle as `sigB`. -/
def submitBothSignatures (pubOf : String → String) (tradeId : String)
    (buyerSig sellerSig : CompletionSig) : Except TradeErr CompletePayload := do
  _ ← verifyPeerSignature (edVerify pubOf) buyerSig.body buyerSig.hash
        buyerSig.signature buyerSig.pubkey
  _ ← verifyPeerSignature (edVerify pubOf) sellerSig.body sellerSig.hash
        sellerSig.signature sellerSig.pubkey
  submitComplete pubOf tradeId sellerSig buyerSig

/-- Result of `confirmCompleteTrade`: with no cached peer proposal it sends
its own `TRADE_COMPLETE_REQUEST` over chat; with one it submits both
signatures to the relay. -/
inductive ConfirmOutcome where
  | proposalSent (sig : CompletionSig)
  | submitted (payload : CompletePayload)

/-- The buyer/seller attribution chain of `confirmCompleteTrade`, in source
order: first match the cached peer signature's key against the registered
seller then buyer key, then match the local identity's key against them; the
result is the `(buyerSig, sellerSig)` pair, or `RoleResolutionError` when no
comparison matches. -/
def resolveRoles (id : Identity) (trade : TradeRec) (mySig peerSig : CompletionSig) :
    Except TradeErr (CompletionSig × CompletionSig) :=
  if peerSig.pubkey = trade.seller_pubkey then .ok (mySig, peerSig)
  else if some peerSig.pubkey = trade.buyer_pubkey then .ok (peerSig, mySig)
  else if id.publicKey = trade.seller_pubkey then .ok (peerSig, mySig)
  else if some id.publicKey = trade.buyer_pubkey then .ok (mySig, peerSig)
  else .error .roleResolutionError

/-- trade.js `confirmCompleteTrade` (core logic; fetching the trade record,
identity and chat-session preconditions are premises of the theorems): when a
verified peer proposal is cached, counter-sign the peer's exact body, then
attribute the buyer/seller roles by comparing first the peer's and then the
local public key against the trade record, and submit; when no peer proposal
is cached, sign a fresh body at the current time and send it over chat. -/
def confirmCompleteTrade (pubOf : String → String) (tradeId : String) (id : Identity)
    (trade : TradeRec) (pending : Option CompletionSig) (now : Int) :
    Except TradeErr ConfirmOutcome :=
  match pending with
  | none => .ok (.proposalSent (signComplete id tradeId now))
  | some peerSig =>
    let mySig := signCompleteWithBody id peerSig.body
    match resolveRoles id trade mySig peerSig with
    | .error e => .error e
    | .ok (buyerSig, sellerSig) =>
      (submitBothSignatures pubOf tradeId buyerSig sellerSig).map .submitted

end Trade

namespace Chat

open Canon (Jval)

/-- JavaScript truthiness of a JSON-like value. -/
def jTruthy : Jval → Bool
  | .jnull => false
  | .jbool b => b
  | .jnum n => n != 0
  | .jstr s => s != ""
  | .jarr _ => true
  | .jobj _ => true

/-- Property access `v.k`: defined on objects, `undefined` (here `none`)
otherwise. Runtime JavaScript objects have unique keys, so first match is
the match. -/
def jget : Jval → String → Option Jval
  | .jobj l, k => (l.find? (fun e => e.1 == k)).map (·.2)
  | _, _ => none

/-- The nullish-coalescing operator `a ?? b`. -/
def jsCoalesce (a b : Option Jval) : Option Jval :=
  match a with
  | none => b
  | some .jnull => b
  | some v => some v

/-- JavaScript `String.prototype.trim`: strip leading and trailing
whitespace (modeled on the ASCII whitespace characters, which are the only
ones that matter for base64-alphabet keys). -/
def jsTrim (s : String) : String :=
  ⟨((s.data.dropWhile Char.isWhitespace).reverse.dropWhile Char.isWhitespace).reverse⟩

/-- A character of the key alphabet `[A-Za-z0-9+/=]` accepted by
`normalizeChatPubKey`. -/
def b64KeyChar (c : Char) : Bool :=
  let n := c.toNat
  (65 ≤ n && n ≤ 90) || (97 ≤ n && n ≤ 122) || (48 ≤ n && n ≤ 57) ||
    n = 43 || n = 47 || n = 61

/-- The chat module's `normalizeChatPubKey`: falsy input is rejected; a
string input is tentatively JSON-parsed and replaced by its `pubkey` member
when the parse yields a truthy value with a truthy `pubkey` (a failed parse
keeps the original string); an object input is likewise replaced by a truthy
`pubkey` member; anything that is then not a string, trims to empty, or
contains a character outside the base64 alphabet is rejected. `jsonParse`
abstracts `JSON.parse` (returning `none` where it would throw). -/
def normalizeChatPubKey (jsonParse : String → Option Jval) (value : Jval) : Option String :=
  if !jTruthy value then none
  else
    let key : Jval :=
      match value with
      | .jstr s =>
        match jsonParse s with
        | some parsed =>
          if jTruthy parsed then
            match jget parsed "pubkey" with
            | some pk => if jTruthy pk then pk else value
            | none => value
          else value
        | none => value
      | .jobj _ =>
        match jget value "pubkey" with
        | some pk => if jTruthy pk then pk else value
        | none => value
      | _ => value
    match key with
    | .jstr s =>
      let trimmed := jsTrim s
      if trimmed = "" then none
      else if !trimmed.data.all b64KeyChar then none
      else some trimmed
    | _ => none

/-- The chat module's `parseCiphertext`: falsy input yields null, a string is
JSON-parsed (null on failure), a non-null `typeof "object"` value is returned
as is, and any other primitive yields null. -/
def parseCiphertext (jsonParse : String → Option Jval) (ciphertext : Jval) : Option Jval :=
  if !jTruthy ciphertext then none
  else match ciphertext with
    | .jstr s => jsonParse s
    | .jarr _ => some ciphertext
    | .jobj _ => some ciphertext
    | _ => none

/-- The chat module's `toDateFromMixedTimestamp`: a number strictly above
1e12 is taken as epoch milliseconds, any other number as epoch seconds and
scaled by 1000, and a non-number becomes the current time (`new Date()`,
passed in as `now` since the embedding is pure). Dates are modeled as epoch
milliseconds. -/
def toDateFromMixedTimestamp (ts : Option Jval) (now : Int) : Int :=
  match ts with
  | some (.jnum n) => if n > 1000000000000 then n else n * 1000
  | _ => now

/-- A message in a session log: the decrypted plaintext object, the display
timestamp the module computed for it, and whether it is locally authored
(the spread `{...plaintext, timestamp, isOwn}` of the source, with the two
overriding fields kept apart from the spread object). -/
structure Msg where
  plain : Jval
  timestamp : Int
  isOwn : Bool

/-- A `PeerSession`: peer key, derived symmetric key (of abstract type `K`),
append-ordered message log, unread counter. -/
structure Session (K : Type) where
  peerChatPubKey : String
  chatKey : K
  messages : List Msg
  unread : Nat

/-- The chat module's top-level mutable state, plus two instrumentation
counters: `deriveCount` counts calls of `deriveChatKey` and `notifyCount`
counts new-session notifications — they record how often the module crossed
those call sites and influence nothing. -/
structure St (K : Type) where
  currentTradeId : String
  chatPrivKey : String
  myChatPubKeyStr : String
  isSeller : Bool
  sellerChatPubKey : Option String
  sessions : List (String × Session K)
  currentSessionPeer : Option String
  deriveCount : Nat
  notifyCount : Nat

/-- The cryptographic collaborators the chat module imports from crypto.js,
abstracted: `JSON.parse`, `deriveChatKey` (private key, peer public key,
trade id), `encrypt` and `decrypt` (`none` models a decryption failure). -/
structure Prims (K : Type) where
  jsonParse : String → Option Jval
  derive : String → String → String → K
  encrypt : K → Jval → Jval
  decrypt : K → Jval → Option Jval

/-- JavaScript truthiness of a nullable string (null and the empty string
are falsy). -/
def optTruthy : Option String → Bool
  | none => false
  | some s => s != ""

/-- `Map.get`. -/
def mapGet {α : Type} (m : List (String × α)) (k : String) : Option α :=
  (m.find? (fun e => e.1 == k)).map (·.2)

/-- `Map.set`: replace in place if the key exists, append otherwise. -/
def mapSet {α : Type} (m : List (String × α)) (k : String) (v : α) : List (String × α) :=
  if m.any (fun e => e.1 == k) then m.map (fun e => if e.1 == k then (k, v) else e)
  else m ++ [(k, v)]

/-- Result of the first phase of `createSession` (everything before the
`await deriveChatKey`): the call either threw on an invalid key, returned
without deriving (self key or existing session), or passed the existence
check and has its key derivation in flight. -/
inductive CreateRes (K : Type) where
  | thrown
  | done (s : Option (Session K))
  | pend (peer : String)

/-- First phase of the chat module's `createSession(peerChatPubKey)`:
normalize (throwing on failure), return null for one's own key, return the
existing session if the map already has one, and otherwise begin the
symmetric-key derivation — the `await` at `deriveChatKey` is the suspension
point at which another task can run. -/
def createSessionStart {K : Type} (p : Prims K) (st : St K) (peerRaw : Jval) :
    St K × CreateRes K :=
  match normalizeChatPubKey p.jsonParse peerRaw with
  | none => (st, .thrown)
  | some peer =>
    if peer = st.myChatPubKeyStr then (st, .done none)
    else match mapGet st.sessions peer with
      | some s => (st, .done (some s))
      | none => ({ st with deriveCount := st.deriveCount + 1 }, .pend peer)

/-- Second phase of `createSession`: the derivation completes, the session is
registered with `Map.set` (overwriting any session registered meanwhile) and
the new-session notification fires. -/
def createSessionFinish {K : Type} (p : Prims K) (st : St K) (peer : String) :
    St K × Session K :=
  let chatKey := p.derive st.chatPrivKey peer st.currentTradeId
  let session : Session K := ⟨peer, chatKey, [], 0⟩
  ({ st with sessions := mapSet st.sessions peer session,
             notifyCount := st.notifyCount + 1 }, session)

/-- The chat module's `createSession` run without interleaving: phase one,
and phase two when a derivation was started. `.error ()` models the throw on
an invalid peer key. -/
def createSession {K : Type} (p : Prims K) (st : St K) (peerRaw : Jval) :
    St K × Except Unit (Option (Session K)) :=
  match createSessionStart p st peerRaw with
  | (st', .thrown) => (st', .error ())
  | (st', .done r) => (st', .ok r)
  | (st', .pend peer) =>
    let (st'', s) := createSessionFinish p st' peer
    (st'', .ok (some s))

/-- Options of `appendDecryptedMessage` (both default to true; history
loading passes false/false). -/
structure AppendOpts where
  markUnread : Bool
  notifyUi : Bool

/-- The chat module's `appendDecryptedMessage`: no-op if the session is
missing; otherwise build the message object with `isOwn` from the sender key
and the display timestamp from `plaintext?.timestamp ?? rawTimestamp` through
the magnitude heuristic, append it to the log, and bump the unread counter
when requested, the message is foreign, and the session is not the active
one. -/
def appendDecryptedMessage {K : Type} (st : St K) (sessionKey : String) (plaintext : Jval)
    (senderChatPubKey : String) (rawTimestamp : Option Jval) (opts : AppendOpts)
    (now : Int) : St K :=
  match mapGet st.sessions sessionKey with
  | none => st
  | some session =>
    let isOwn := senderChatPubKey = st.myChatPubKeyStr
    let msg : Msg :=
      { plain := plaintext,
        timestamp := toDateFromMixedTimestamp (jsCoalesce (jget plaintext "timestamp") rawTimestamp) now,
        isOwn := isOwn }
    let s1 := { session with messages := session.messages ++ [msg] }
    let s2 := if opts.markUnread ∧ ¬isOwn ∧ st.currentSessionPeer ≠ some sessionKey
              then { s1 with unread := s1.unread + 1 } else s1
    { st with sessions := mapSet st.sessions sessionKey s2 }

/-- An inbound `CHAT` wire message (the fields `handleChatMessage` reads). -/
structure WireMsg where
  sender_chat_pubkey : Jval
  ciphertext : Jval
  timestamp : Option Jval

/-- Tail of `handleChatMessage` after the session is ensured: fetch the
session, try to decrypt, and append on success — a decryption failure is
swallowed. -/
def handleChatTail {K : Type} (p : Prims K) (st : St K) (sender : String) (ct : Jval)
    (rawTimestamp : Option Jval) (now : Int) : St K :=
  match mapGet st.sessions sender with
  | none => st
  | some session =>
    match p.decrypt session.chatKey ct with
    | none => st
    | some plaintext =>
      appendDecryptedMessage st sender plaintext sender rawTimestamp
        { markUnread := true, notifyUi := true } now

/-- The chat module's `handleChatMessage`: normalize the sender key and parse
the ciphertext (returning on failure), drop one's own messages, drop — when
running as buyer with a recorded seller chat key — any message whose sender
is not that seller, ensure a session exists (a createSession throw aborts),
then decrypt and append. -/
def handleChatMessage {K : Type} (p : Prims K) (st : St K) (msg : WireMsg) (now : Int) :
    St K :=
  match normalizeChatPubKey p.jsonParse msg.sender_chat_pubkey with
  | none => st
  | some sender =>
    match parseCiphertext p.jsonParse msg.ciphertext with
    | none => st
    | some ct =>
      if sender = st.myChatPubKeyStr then st
      else if !st.isSeller && optTruthy st.sellerChatPubKey &&
              !(st.sellerChatPubKey == some sender) then st
      else match mapGet st.sessions sender with
        | some _ => handleChatTail p st sender ct msg.timestamp now
        | none =>
          match createSession p st (.jstr sender) with
          | (st', .error _) => st'
          | (st', .ok _) => handleChatTail p st' sender ct msg.timestamp now

/-- Errors `sendMessage` can raise: no active session, a vanished session,
or a throwing transport send. -/
inductive SendErr where
  | noActiveSession
  | sessionMissing
  | transport
deriving DecidableEq, Repr

/-- The plaintext envelope both sendMessage variants build. -/
def chatEnvelope {K : Type} (st : St K) (text : String) (now : Int) : Jval :=
  .jobj [("trade_id", .jstr st.currentTradeId), ("sender_pubkey", .jstr st.myChatPubKeyStr),
         ("content", .jstr text), ("message", .jstr text), ("timestamp", .jnum now),
         ("type", .jstr "CHAT")]

/-- The part_001 chat module's `sendMessage`: require an active session,
build and encrypt the envelope, send over the transport FIRST, and append to
the local log only afterwards — so a throwing transport send propagates with
the local append never performed. The function returns the final state along
with the outcome (a thrown error leaves the pre-call state). -/
def sendMessage {K : Type} (p : Prims K) (transport : Jval → String → String → Except Unit Unit)
    (st : St K) (text : String) (now : Int) : St K × Except SendErr Bool :=
  match st.currentSessionPeer with
  | none => (st, .error .noActiveSession)
  | some peer =>
    match mapGet st.sessions peer with
    | none => (st, .error .sessionMissing)
    | some session =>
      let plaintext := chatEnvelope st text now
      let encrypted := p.encrypt session.chatKey plaintext
      let buyerChatPubKey := if st.isSeller then peer else st.myChatPubKeyStr
      match transport encrypted st.myChatPubKeyStr buyerChatPubKey with
      | .error _ => (st, .error .transport)
      | .ok _ =>
        (appendDecryptedMessage st peer plaintext st.myChatPubKeyStr
          (some (.jnum now)) { markUnread := true, notifyUi := true } now, .ok true)

end Chat

namespace ChatJs

open Canon (Jval)
open Chat (Msg Session St Prims mapGet mapSet chatEnvelope SendErr)

/-- chat.js `sendMessage`: require an active session, build and encrypt the
envelope, push the message object (`{...plaintext, isOwn: true}`, timestamp
kept as the raw millisecond number) onto the local log, and only then send
over the transport inside try/catch, rethrowing on failure — the local append
survives a transport failure. -/
def sendMessage {K : Type} (p : Prims K) (transport : Jval → String → String → Except Unit Unit)
    (st : St K) (text : String) (now : Int) : St K × Except SendErr Bool :=
  match st.currentSessionPeer with
  | none => (st, .error .noActiveSession)
  | some peer =>
    match mapGet st.sessions peer with
    | none => (st, .error .sessionMissing)
    | some session =>
      let plaintext := chatEnvelope st text now
      let ciphertext := p.encrypt session.chatKey plaintext
      let messageObj : Msg := { plain := plaintext, timestamp := now, isOwn := true }
      let st1 := { st with
        sessions := mapSet st.sessions peer
          { session with messages := session.messages ++ [messageObj] } }
      let buyerChatPubKey := if st.isSeller then peer else st.myChatPubKeyStr
      match transport ciphertext st.myChatPubKeyStr buyerChatPubKey with
      | .error _ => (st1, .error .transport)
      | .ok _ => (st1, .ok true)

end ChatJs

namespace Chat

open Canon (Jval)

/-- Two sequential, completed runs of `createSession` for the same raw peer
key: the second run finds the session registered by the first. -/
def createSessionTwiceSequential {K : Type} (p : Prims K) (st : St K) (peerRaw : Jval) :
    St K :=
  (createSession p (createSession p st peerRaw).1 peerRaw).1

/-- Two re-entrantly interleaved runs of `createSession` for the same raw
peer key: task two starts while task one is suspended at its
`await deriveChatKey`, exactly the interleaving a JOIN signal arriving during
history reconciliation produces. Phases run in the order
start1, start2, finish1, finish2 (the single-threaded event loop interleaves
whole segments between awaits). -/
def createSessionTwiceInterleaved {K : Type} (p : Prims K) (st : St K) (peerRaw : Jval) :
    St K :=
  match createSessionStart p st peerRaw with
  | (st1, .pend peer1) =>
    match createSessionStart p st1 peerRaw with
    | (st2, .pend peer2) =>
      (createSessionFinish p (createSessionFinish p st2 peer1).1 peer2).1
    | (st2, _) => (createSessionFinish p st2 peer1).1
  | (st1, _) => st1

end Chat

namespace Fixtures

open Canon (Jval)

/-- Concrete chat collaborators over string-valued keys: `JSON.parse` fails
on every input (as it does on a bare base64 key), derivation returns a fixed
key, encryption is the identity on the plaintext object, decryption fails. -/
def prims0 : Chat.Prims String :=
  { jsonParse := fun _ => none
    derive := fun _ _ _ => "KEY"
    encrypt := fun _ v => v
    decrypt := fun _ _ => none }

/-- A buyer-side chat state with seller chat key "S1" and one registered,
active session with peer "P" whose log is empty. -/
def chatSt0 : Chat.St String :=
  { currentTradeId := "T"
    chatPrivKey := "priv"
    myChatPubKeyStr := "ME"
    isSeller := false
    sellerChatPubKey := some "S1"
    sessions := [("P", ⟨"P", "KEY", [], 0⟩)]
    currentSessionPeer := some "P"
    deriveCount := 0
    notifyCount := 0 }

/-- A freshly initialized chat state with no sessions. -/
def chatStEmpty : Chat.St String :=
  { currentTradeId := "T"
    chatPrivKey := "priv"
    myChatPubKeyStr := "ME"
    isSeller := false
    sellerChatPubKey := none
    sessions := []
    currentSessionPeer := none
    deriveCount := 0
    notifyCount := 0 }

/-- A transport whose send always throws. -/
def failTransport : Jval → String → String → Except Unit Unit := fun _ _ _ => .error ()

/-- Base64 encoding of 32 zero bytes: a public-key string that the raw
Ed25519 importer accepts. -/
def pk32b64 : String := "AAAAAAAAAAAAAAAAAAAAAAAAAAAAAAAAAAAAAAAAAAA="

end Fixtures

namespace Chat

theorem find?_map_replace {α : Type} (k : String) (v : α) :
    ∀ m : List (String × α), m.any (fun e => e.1 == k) = true →
      (m.map (fun e => if e.1 == k then (k, v) else e)).find? (fun e => e.1 == k) =
        some (k, v) := by
  intro m
  induction m with
  | nil => simp
  | cons e t ih =>
    intro h
    by_cases he : (e.1 == k) = true
    · simp [List.find?, he]
    · have hfe : (e.1 == k) = false := Bool.eq_false_iff.mpr he
      have ht : t.any (fun e => e.1 == k) = true := by
        simp only [List.any_cons, hfe, Bool.false_or] at h
        exact h
      simp only [List.map_cons, hfe, Bool.false_eq_true, if_false, List.find?, hfe]
      exact ih ht

theorem find?_append_new {α : Type} (k : String) (v : α) :
    ∀ m : List (String × α), m.any (fun e => e.1 == k) = false →
      (m ++ [(k, v)]).find? (fun e => e.1 == k) = some (k, v) := by
  intro m
  induction m with
  | nil => simp [List.find?]
  | cons e t ih =>
    intro h
    simp only [List.any_cons, Bool.or_eq_false_iff] at h
    simp only [List.cons_append, List.find?, h.1]
    exact ih (by simp [h.2])

theorem mapGet_mapSet_self {α : Type} (m : List (String × α)) (k : String) (v : α) :
    mapGet (mapSet m k v) k = some v := by
  unfold mapGet mapSet
  by_cases h : m.any (fun e => e.1 == k) = true
  · simp only [h, if_true, find?_map_replace k v m h]
    rfl
  · have hf : m.any (fun e => e.1 == k) = false := Bool.eq_false_iff.mpr h
    simp only [hf, Bool.false_eq_true, if_false, find?_append_new k v m hf]
    rfl

end Chat

/-- C3: for every completion-signature bundle whose claimed hash differs from
the recomputed `hash(canonicalize(body))`, `verifyPeerSignature` fails with
`IntegrityError` — uniformly in the signature-verification primitive `ver`,
which is therefore never consulted on that path — and any outcome other than
`IntegrityError` implies the hash check passed, so signature verification is
only ever reached under that precondition. -/
theorem claim_C3_integrity_error_precedes_signature_verification :
    ∀ (ver : String → Trade.EdSig → String → Bool) (body : Canon.Jval) (h : String)
      (sig : Trade.EdSig) (pub : String),
      (Crypto.hash body ≠ h →
        Trade.verifyPeerSignature ver body h sig pub = .error .integrityError) ∧
      (Trade.verifyPeerSignature ver body h sig pub ≠ .error .integrityError →
        Crypto.hash body = h) := by
  intro ver body h sig pub
  constructor
  · intro hne
    simp [Trade.verifyPeerSignature, hne]
  · intro hok
    by_contra hne
    exact hok (by simp [Trade.verifyPeerSignature, hne])

/-- Witness for C3 at a concrete input: the null body against the empty hash
string, under a primitive that accepts everything — the hash check still
rejects first. -/
theorem claim_C3_integrity_error_precedes_signature_verification_witness :
    Crypto.hash Canon.Jval.jnull ≠ "" ∧
    Trade.verifyPeerSignature (fun _ _ _ => true) Canon.Jval.jnull ""
      (Trade.edSign "" "sk") "pk" = .error .integrityError := by
  have hne : Crypto.hash Canon.Jval.jnull ≠ "" := by
    simp only [Crypto.hash, Canon.canonicalize]
    decide
  exact ⟨hne,
    (claim_C3_integrity_error_precedes_signature_verification (fun _ _ _ => true)
      Canon.Jval.jnull "" (Trade.edSign "" "sk") "pk").1 hne⟩

/-- C5: for every matching pair of exchange keypairs (private scalars `a`,
`b` with public keys derived by `dhPub`) and every context string,
`deriveChatKey(a_priv, B_pub, ctx)` equals `deriveChatKey(b_priv, A_pub, ctx)`;
and for the same keypair pair, distinct context strings yield distinct
session keys (the context is the HKDF salt). -/
theorem claim_C5_derive_session_key_symmetric_and_context_separated :
    ∀ (a b : Nat) (ctx ctx' : String),
      Crypto.deriveChatKey a (Crypto.dhPub b) ctx = Crypto.deriveChatKey b (Crypto.dhPub a) ctx ∧
      (ctx ≠ ctx' →
        Crypto.deriveChatKey a (Crypto.dhPub b) ctx ≠ Crypto.deriveChatKey a (Crypto.dhPub b) ctx') := by
  intro a b ctx ctx'
  constructor
  · unfold Crypto.deriveChatKey Crypto.deriveBitsDH Crypto.dhPub
    have : (Crypto.dhG ^ b % Crypto.dhP) ^ a % Crypto.dhP
         = (Crypto.dhG ^ a % Crypto.dhP) ^ b % Crypto.dhP := by
      rw [← Nat.pow_mod, ← Nat.pow_mod, ← pow_mul, ← pow_mul, Nat.mul_comm]
    rw [this]
  · intro hne heq
    exact hne (congrArg Crypto.ChatKeyMat.salt heq)

/-- Witness for C5 at concrete scalars 2 and 3 and contexts "c1" ≠ "c2". -/
theorem claim_C5_derive_session_key_symmetric_and_context_separated_witness :
    Crypto.deriveChatKey 2 (Crypto.dhPub 3) "c1" = Crypto.deriveChatKey 3 (Crypto.dhPub 2) "c1" ∧
    Crypto.deriveChatKey 2 (Crypto.dhPub 3) "c1" ≠ Crypto.deriveChatKey 2 (Crypto.dhPub 3) "c2" :=
  ⟨(claim_C5_derive_session_key_symmetric_and_context_separated 2 3 "c1" "c2").1,
   (claim_C5_derive_session_key_symmetric_and_context_separated 2 3 "c1" "c2").2
     (by decide)⟩

/-- C7: a session manager acting as buyer with recorded seller chat key `s1`
drops an inbound CHAT message whose sender key normalizes to some `s2 ≠ s1`:
`handleChatMessage` returns the state unchanged — the same session map, logs
and unread counters (and no key derivation or notification happened). -/
theorem claim_C7_buyer_drops_chat_from_non_seller :
    ∀ (K : Type) (p : Chat.Prims K) (st : Chat.St K) (msg : Chat.WireMsg) (now : Int)
      (s1 s2 : String),
      st.isSeller = false →
      st.sellerChatPubKey = some s1 → s1 ≠ "" →
      Chat.normalizeChatPubKey p.jsonParse msg.sender_chat_pubkey = some s2 →
      s2 ≠ s1 →
      Chat.handleChatMessage p st msg now = st := by
  intro K p st msg now s1 s2 hSeller hKey hNe hNorm hDiff
  unfold Chat.handleChatMessage
  rw [hNorm]
  cases hct : Chat.parseCiphertext p.jsonParse msg.ciphertext with
  | none => rfl
  | some ct =>
    by_cases hMine : s2 = st.myChatPubKeyStr
    · simp [hMine]
    · have hcond : (!st.isSeller && Chat.optTruthy st.sellerChatPubKey &&
          !(st.sellerChatPubKey == some s2)) = true := by
        rw [hSeller, hKey]
        simp [Chat.optTruthy, hNe]
        exact fun h => hDiff h.symm
      simp [hMine, hcond]

/-- Witness for C7: a concrete buyer state with seller key "S1" and one
session receives a CHAT from "S2"; the state is returned unchanged. -/
theorem claim_C7_buyer_drops_chat_from_non_seller_witness :
    Chat.normalizeChatPubKey Fixtures.prims0.jsonParse (Canon.Jval.jstr "S2") = some "S2" ∧
    Chat.handleChatMessage Fixtures.prims0 Fixtures.chatSt0
      ⟨Canon.Jval.jstr "S2", Canon.Jval.jstr "ct", none⟩ 99 = Fixtures.chatSt0 :=
  ⟨rfl,
   claim_C7_buyer_drops_chat_from_non_seller String Fixtures.prims0 Fixtures.chatSt0
     ⟨Canon.Jval.jstr "S2", Canon.Jval.jstr "ct", none⟩ 99 "S1" "S2"
     rfl rfl (by decide) rfl (by decide)⟩

/-- C10: the display timestamp of an appended message comes from the
magnitude heuristic of `toDateFromMixedTimestamp` — a number strictly above
10^12 is kept as milliseconds, any other number is scaled by 1000, a
non-number becomes the append-time clock value — and
`appendDecryptedMessage` applies it to `plaintext?.timestamp ?? rawTimestamp`
on every message it appends to a session log. -/
theorem claim_C10_append_timestamp_magnitude_heuristic :
    ∀ (now : Int),
      (∀ n : Int, n > 1000000000000 →
        Chat.toDateFromMixedTimestamp (some (.jnum n)) now = n) ∧
      (∀ n : Int, n ≤ 1000000000000 →
        Chat.toDateFromMixedTimestamp (some (.jnum n)) now = n * 1000) ∧
      (∀ ts : Option Canon.Jval, (∀ n : Int, ts ≠ some (.jnum n)) →
        Chat.toDateFromMixedTimestamp ts now = now) ∧
      (∀ (K : Type) (st : Chat.St K) (sessionKey : String) (plaintext : Canon.Jval)
         (sender : String) (rawTs : Option Canon.Jval) (opts : Chat.AppendOpts)
         (session : Chat.Session K),
         Chat.mapGet st.sessions sessionKey = some session →
         ∃ s', Chat.mapGet
             (Chat.appendDecryptedMessage st sessionKey plaintext sender rawTs opts now).sessions
             sessionKey = some s' ∧
           s'.messages = session.messages ++
             [⟨plaintext,
               Chat.toDateFromMixedTimestamp
                 (Chat.jsCoalesce (Chat.jget plaintext "timestamp") rawTs) now,
               decide (sender = st.myChatPubKeyStr)⟩]) := by
  intro now
  refine ⟨?_, ?_, ?_, ?_⟩
  · intro n h
    simp [Chat.toDateFromMixedTimestamp, h]
  · intro n h
    simp [Chat.toDateFromMixedTimestamp]
    omega
  · intro ts h
    unfold Chat.toDateFromMixedTimestamp
    match ts with
    | none => rfl
    | some .jnull => rfl
    | some (.jbool b) => rfl
    | some (.jnum n) => exact absurd rfl (h n)
    | some (.jstr s) => rfl
    | some (.jarr l) => rfl
    | some (.jobj l) => rfl
  · intro K st sessionKey plaintext sender rawTs opts session hGet
    unfold Chat.appendDecryptedMessage
    rw [hGet]
    by_cases hc : opts.markUnread ∧ ¬(sender = st.myChatPubKeyStr) ∧
        st.currentSessionPeer ≠ some sessionKey
    · exact ⟨_, by simp only [if_pos hc]; exact Chat.mapGet_mapSet_self _ _ _, by simp⟩
    · exact ⟨_, by simp only [if_neg hc]; exact Chat.mapGet_mapSet_self _ _ _, by simp⟩

/-- Witness for C10 at concrete inputs: 2·10^12 is kept as milliseconds, 5 is
scaled to 5000, a string timestamp falls back to the clock, and a concrete
append stores the heuristic timestamp. -/
theorem claim_C10_append_timestamp_magnitude_heuristic_witness :
    Chat.toDateFromMixedTimestamp (some (.jnum 2000000000000)) 7 = 2000000000000 ∧
    Chat.toDateFromMixedTimestamp (some (.jnum 5)) 7 = 5000 ∧
    Chat.toDateFromMixedTimestamp (some (.jstr "x")) 7 = 7 ∧
    (∃ s', Chat.mapGet
        (Chat.appendDecryptedMessage Fixtures.chatSt0 "P" (Canon.Jval.jstr "hi") "S1" none
          ⟨true, true⟩ 7).sessions "P" = some s' ∧
      s'.messages = [⟨Canon.Jval.jstr "hi",
        Chat.toDateFromMixedTimestamp
          (Chat.jsCoalesce (Chat.jget (Canon.Jval.jstr "hi") "timestamp") none) 7,
        decide ("S1" = Fixtures.chatSt0.myChatPubKeyStr)⟩]) :=
  ⟨(claim_C10_append_timestamp_magnitude_heuristic 7).1 _ (by decide),
   (claim_C10_append_timestamp_magnitude_heuristic 7).2.1 _ (by decide),
   (claim_C10_append_timestamp_magnitude_heuristic 7).2.2.1 _ (fun n => by simp),
   (claim_C10_append_timestamp_magnitude_heuristic 7).2.2.2 String Fixtures.chatSt0 "P"
     (Canon.Jval.jstr "hi") "S1" none ⟨true, true⟩ ⟨"P", "KEY", [], 0⟩ rfl⟩

/-- C8 counterexample: in the part_001 chat module's `sendMessage`, the
transport send happens before the local append. With a session active and a
transport whose send throws, the call propagates the transport error and the
state is unchanged — the sent message is NOT in the local log, contradicting
the claim that the plaintext is appended before a transport failure can
propagate. -/
theorem claim_C8_counterexample :
    (Chat.sendMessage Fixtures.prims0 Fixtures.failTransport Fixtures.chatSt0 "hello" 5).2 =
      .error .transport ∧
    (Chat.sendMessage Fixtures.prims0 Fixtures.failTransport Fixtures.chatSt0 "hello" 5).1 =
      Fixtures.chatSt0 ∧
    (Chat.mapGet (Chat.sendMessage Fixtures.prims0 Fixtures.failTransport Fixtures.chatSt0
        "hello" 5).1.sessions "P").map Chat.Session.messages = some [] :=
  ⟨rfl, rfl, rfl⟩

/-- C8 amended: the append-before-transport ordering holds in the chat.js
variant of `sendMessage` (but not in the part_001 variant, whose send
precedes the append — see the counterexample): whenever the transport send
throws, chat.js's `sendMessage` propagates the failure AND the active
session's log already contains the plaintext envelope as locally authored. -/
theorem claim_C8_chatjs_appends_before_transport_failure :
    ∀ (K : Type) (p : Chat.Prims K) (transport : Canon.Jval → String → String → Except Unit Unit)
      (st : Chat.St K) (text : String) (now : Int) (peer : String) (session : Chat.Session K),
      st.currentSessionPeer = some peer →
      Chat.mapGet st.sessions peer = some session →
      (∀ c a b, transport c a b = .error ()) →
      (ChatJs.sendMessage p transport st text now).2 = .error .transport ∧
      Chat.mapGet (ChatJs.sendMessage p transport st text now).1.sessions peer =
        some { session with messages := session.messages ++
          [⟨Chat.chatEnvelope st text now, now, true⟩] } := by
  intro K p transport st text now peer session hPeer hGet hFail
  unfold ChatJs.sendMessage
  simp only [hPeer, hGet, hFail]
  exact ⟨trivial, Chat.mapGet_mapSet_self _ _ _⟩

/-- Witness for the amended C8 on a concrete state and failing transport:
the error propagates and the log holds the envelope. -/
theorem claim_C8_chatjs_appends_before_transport_failure_witness :
    (ChatJs.sendMessage Fixtures.prims0 Fixtures.failTransport Fixtures.chatSt0 "hi" 5).2 =
      .error .transport ∧
    Chat.mapGet (ChatJs.sendMessage Fixtures.prims0 Fixtures.failTransport Fixtures.chatSt0
        "hi" 5).1.sessions "P" =
      some ⟨"P", "KEY", [⟨Chat.chatEnvelope Fixtures.chatSt0 "hi" 5, 5, true⟩], 0⟩ :=
  claim_C8_chatjs_appends_before_transport_failure String Fixtures.prims0
    Fixtures.failTransport Fixtures.chatSt0 "hi" 5 "P" ⟨"P", "KEY", [], 0⟩
    rfl rfl (fun _ _ _ => rfl)

/-- C9: the code at the failing interleaving. Two `createSession("P")` runs
interleaved at the `await deriveChatKey` suspension point (the second starts
while the first awaits, as when a JOIN signal arrives during history
reconciliation) leave exactly one PeerSession for "P" but perform TWO
symmetric-key derivations (and fire two new-session notifications): the
existence check of the second run happens before the first run registers the
session, and nothing guards the creation. Sequential repetition, by
contrast, derives exactly once — the sequential half of the claim holds. -/
theorem claim_C9_interleaved_create_derives_twice :
    (Chat.createSessionTwiceInterleaved Fixtures.prims0 Fixtures.chatStEmpty
        (Canon.Jval.jstr "P")).deriveCount = 2 ∧
    (Chat.createSessionTwiceInterleaved Fixtures.prims0 Fixtures.chatStEmpty
        (Canon.Jval.jstr "P")).notifyCount = 2 ∧
    (Chat.createSessionTwiceInterleaved Fixtures.prims0 Fixtures.chatStEmpty
        (Canon.Jval.jstr "P")).sessions.length = 1 ∧
    (Chat.createSessionTwiceSequential Fixtures.prims0 Fixtures.chatStEmpty
        (Canon.Jval.jstr "P")).deriveCount = 1 ∧
    (Chat.createSessionTwiceSequential Fixtures.prims0 Fixtures.chatStEmpty
        (Canon.Jval.jstr "P")).sessions.length = 1 :=
  ⟨rfl, rfl, rfl, rfl, rfl⟩

namespace Trade

theorem verifyPeer_ok_iff {ver : String → EdSig → String → Bool} {body : Canon.Jval}
    {h : String} {sig : EdSig} {pub : String} :
    verifyPeerSignature ver body h sig pub = .ok () ↔
      Crypto.hash body = h ∧ ver h sig pub = true := by
  unfold verifyPeerSignature
  constructor
  · intro hok
    by_cases h1 : Crypto.hash body = h
    · by_cases h2 : ver h sig pub = true
      · exact ⟨h1, h2⟩
      · have : (!ver h sig pub) = true := by simp [h2]
        simp [h1, this] at hok
    · simp [h1] at hok
  · intro ⟨h1, h2⟩
    simp [h1, h2]

theorem edVerify_true_iff {pubOf : String → String} {h : String} {sig : EdSig} {pub : String} :
    edVerify pubOf h sig pub = true ↔ sig.msgHex = h ∧ pubOf sig.signerPriv = pub := by
  unfold edVerify
  simp

theorem submitComplete_ok_of {pubOf : String → String} {tid : String}
    {sigA sigB : CompletionSig}
    (hA : Crypto.hash sigA.body = sigA.hash) (hAB : sigA.hash = sigB.hash)
    (hvA : edVerify pubOf sigA.hash sigA.signature sigA.pubkey = true)
    (hvB : edVerify pubOf sigB.hash sigB.signature sigB.pubkey = true) :
    submitComplete pubOf tid sigA sigB =
      .ok ⟨tid, sigA.hash, sigA.signature, sigB.signature⟩ := by
  unfold submitComplete
  rw [if_neg (not_not_intro hA), if_neg (not_not_intro hAB), hvA, hvB]
  simp

theorem submitBoth_ok_of {pubOf : String → String} {tid : String}
    {bS sS : CompletionSig}
    (hbh : Crypto.hash bS.body = bS.hash) (hsh : Crypto.hash sS.body = sS.hash)
    (hAB : sS.hash = bS.hash)
    (hvB : edVerify pubOf bS.hash bS.signature bS.pubkey = true)
    (hvS : edVerify pubOf sS.hash sS.signature sS.pubkey = true) :
    submitBothSignatures pubOf tid bS sS =
      .ok ⟨tid, sS.hash, sS.signature, bS.signature⟩ := by
  unfold submitBothSignatures
  rw [verifyPeer_ok_iff.mpr ⟨hbh, hvB⟩]
  rw [show ((Except.ok () : Except TradeErr Unit) >>= fun _ =>
      (verifyPeerSignature (edVerify pubOf) sS.body sS.hash sS.signature sS.pubkey) >>= fun _ =>
      submitComplete pubOf tid sS bS) = _ from rfl]
  rw [verifyPeer_ok_iff.mpr ⟨hsh, hvS⟩]
  exact submitComplete_ok_of hsh hAB hvS hvB

theorem submitBoth_ok_inv {pubOf : String → String} {tid : String}
    {bS sS : CompletionSig} {payload : CompletePayload}
    (hok : submitBothSignatures pubOf tid bS sS = .ok payload) :
    payload = ⟨tid, sS.hash, sS.signature, bS.signature⟩ ∧
    Crypto.hash sS.body = sS.hash ∧ Crypto.hash bS.body = bS.hash ∧ sS.hash = bS.hash ∧
    sS.signature.msgHex = sS.hash ∧ bS.signature.msgHex = bS.hash := by
  unfold submitBothSignatures at hok
  cases h1 : verifyPeerSignature (edVerify pubOf) bS.body bS.hash bS.signature bS.pubkey with
  | error e => rw [h1] at hok; simp [Bind.bind, Except.bind] at hok
  | ok u =>
    cases u
    obtain ⟨hbh, hvB⟩ := verifyPeer_ok_iff.mp h1
    rw [h1] at hok
    cases h2 : verifyPeerSignature (edVerify pubOf) sS.body sS.hash sS.signature sS.pubkey with
    | error e => rw [h2] at hok; simp [Bind.bind, Except.bind] at hok
    | ok u =>
      cases u
      obtain ⟨hsh, hvS⟩ := verifyPeer_ok_iff.mp h2
      rw [h2] at hok
      simp only [Bind.bind, Except.bind] at hok
      unfold submitComplete at hok
      by_cases c1 : Crypto.hash sS.body ≠ sS.hash
      · simp [c1] at hok
      · by_cases c2 : sS.hash ≠ bS.hash
        · simp [c1, c2] at hok
        · have hAB : sS.hash = bS.hash := not_not.mp c2
          have hvv : (edVerify pubOf sS.hash sS.signature sS.pubkey &&
              edVerify pubOf bS.hash bS.signature bS.pubkey) = true := by
            rw [hvS, hvB]; rfl
          simp only [c1, c2, if_false, hvv, Bool.not_true, Bool.false_eq_true, if_neg] at hok
          simp at hok
          refine ⟨hok.symm, hsh, hbh, hAB, (edVerify_true_iff.mp hvS).1,
            (edVerify_true_iff.mp hvB).1⟩

theorem confirm_some_eq (pubOf : String → String) (tradeId : String) (id : Identity)
    (trade : TradeRec) (peerSig : CompletionSig) (now : Int) :
    confirmCompleteTrade pubOf tradeId id trade (some peerSig) now =
      (match resolveRoles id trade (signCompleteWithBody id peerSig.body) peerSig with
       | .error e => .error e
       | .ok (buyerSig, sellerSig) =>
         (submitBothSignatures pubOf tradeId buyerSig sellerSig).map .submitted) := rfl

theorem resolveRoles_ok_inv {id : Identity} {trade : TradeRec} {mySig peerSig b s : CompletionSig}
    (hr : resolveRoles id trade mySig peerSig = .ok (b, s)) :
    (b = mySig ∧ s = peerSig) ∨ (b = peerSig ∧ s = mySig) := by
  unfold resolveRoles at hr
  by_cases c1 : peerSig.pubkey = trade.seller_pubkey
  · simp [c1] at hr; exact .inl ⟨hr.1.symm, hr.2.symm⟩
  · by_cases c2 : some peerSig.pubkey = trade.buyer_pubkey
    · simp [c1, c2] at hr; exact .inr ⟨hr.1.symm, hr.2.symm⟩
    · by_cases c3 : id.publicKey = trade.seller_pubkey
      · simp [c1, c2, c3] at hr; exact .inr ⟨hr.1.symm, hr.2.symm⟩
      · by_cases c4 : some id.publicKey = trade.buyer_pubkey
        · simp [c1, c2, c3, c4] at hr; exact .inl ⟨hr.1.symm, hr.2.symm⟩
        · simp [c1, c2, c3, c4] at hr

end Trade

/-- C2: whenever `confirmCompleteTrade` runs with a cached peer proposal (one
that `tryHandleTradeCompleteRequest` stored, i.e. that passed
`verifyPeerSignature`), the locally produced signature is
`signCompleteWithBody` over the peer's exact body — its body IS the peer's
body and its hash equals the peer's `bodyHash` — and the run is independent
of the current clock (no fresh timestamp enters); consequently any submitted
pair covers one hash, `hash(canonicalize(peerBody))`, with both signatures
signing exactly that hash. -/
theorem claim_C2_confirm_countersigns_peers_exact_body :
    ∀ (pubOf : String → String) (tradeId : String) (ident : Trade.Identity)
      (trade : Trade.TradeRec) (peerSig : Trade.CompletionSig) (now now' : Int),
      Trade.cachePeerProposal (Trade.edVerify pubOf) peerSig = some peerSig →
      (Trade.signCompleteWithBody ident peerSig.body).body = peerSig.body ∧
      (Trade.signCompleteWithBody ident peerSig.body).hash = peerSig.hash ∧
      Trade.confirmCompleteTrade pubOf tradeId ident trade (some peerSig) now =
        Trade.confirmCompleteTrade pubOf tradeId ident trade (some peerSig) now' ∧
      (∀ payload, Trade.confirmCompleteTrade pubOf tradeId ident trade (some peerSig) now =
          .ok (.submitted payload) →
        payload.hash = Crypto.hash peerSig.body ∧
        payload.sig_seller.msgHex = Crypto.hash peerSig.body ∧
        payload.sig_buyer.msgHex = Crypto.hash peerSig.body) := by
  intro pubOf tradeId ident trade peerSig now now' hcache
  have hv : Trade.verifyPeerSignature (Trade.edVerify pubOf) peerSig.body peerSig.hash
      peerSig.signature peerSig.pubkey = .ok () := by
    unfold Trade.cachePeerProposal at hcache
    cases hv : Trade.verifyPeerSignature (Trade.edVerify pubOf) peerSig.body peerSig.hash
        peerSig.signature peerSig.pubkey with
    | error e => rw [hv] at hcache; simp at hcache
    | ok u => cases u; rfl
  have hbh : Crypto.hash peerSig.body = peerSig.hash := (Trade.verifyPeer_ok_iff.mp hv).1
  refine ⟨rfl, hbh, rfl, ?_⟩
  intro payload hok
  rw [Trade.confirm_some_eq] at hok
  cases hr : Trade.resolveRoles ident trade
      (Trade.signCompleteWithBody ident peerSig.body) peerSig with
  | error e => rw [hr] at hok; simp at hok
  | ok p =>
    obtain ⟨b, s⟩ := p
    rw [hr] at hok
    replace hok : (Trade.submitBothSignatures pubOf tradeId b s).map
        Trade.ConfirmOutcome.submitted = Except.ok (Trade.ConfirmOutcome.submitted payload) := hok
    cases hsb : Trade.submitBothSignatures pubOf tradeId b s with
    | error e => rw [hsb] at hok; simp [Except.map] at hok
    | ok q =>
      rw [hsb] at hok
      simp only [Except.map] at hok
      have hq : q = payload := by
        injection hok with h'
        injection h'
      subst hq
      obtain ⟨hpay, hsh, hbh2, hAB, hsmsg, hbmsg⟩ := Trade.submitBoth_ok_inv hsb
      have hss : s = Trade.signCompleteWithBody ident peerSig.body ∨ s = peerSig := by
        rcases Trade.resolveRoles_ok_inv hr with ⟨_, h2⟩ | ⟨_, h2⟩
        · exact .inr h2
        · exact .inl h2
      have hbb : b = Trade.signCompleteWithBody ident peerSig.body ∨ b = peerSig := by
        rcases Trade.resolveRoles_ok_inv hr with ⟨h1, _⟩ | ⟨h1, _⟩
        · exact .inl h1
        · exact .inr h1
      have hsHash : s.hash = Crypto.hash peerSig.body := by
        rcases hss with h | h <;> rw [h]
        · rfl
        · exact hbh.symm
      have hbHash : b.hash = Crypto.hash peerSig.body := by
        rcases hbb with h | h <;> rw [h]
        · rfl
        · exact hbh.symm
      subst hpay
      exact ⟨hsHash, by rw [hsmsg]; exact hsHash, by rw [hbmsg]; exact hbHash⟩

/-- Witness for C2: a concrete verified peer bundle (public keys modeled by
the identity `pubOf`), concrete identity and trade; the theorem's
conclusions at clock values 11 and 99. -/
theorem claim_C2_confirm_countersigns_peers_exact_body_witness :
    Trade.cachePeerProposal (Trade.edVerify (fun s => s))
      ⟨Canon.Jval.jnull, Crypto.hash Canon.Jval.jnull,
        Trade.edSign (Crypto.hash Canon.Jval.jnull) "PK_PEER", "PK_PEER"⟩ =
      some ⟨Canon.Jval.jnull, Crypto.hash Canon.Jval.jnull,
        Trade.edSign (Crypto.hash Canon.Jval.jnull) "PK_PEER", "PK_PEER"⟩ ∧
    (Trade.signCompleteWithBody ⟨"PK_ME", "PK_ME"⟩ Canon.Jval.jnull).hash =
      Crypto.hash Canon.Jval.jnull ∧
    Trade.confirmCompleteTrade (fun s => s) "T" ⟨"PK_ME", "PK_ME"⟩ ⟨"T", "PK_PEER", some "PK_ME"⟩
        (some ⟨Canon.Jval.jnull, Crypto.hash Canon.Jval.jnull,
          Trade.edSign (Crypto.hash Canon.Jval.jnull) "PK_PEER", "PK_PEER"⟩) 11 =
      Trade.confirmCompleteTrade (fun s => s) "T" ⟨"PK_ME", "PK_ME"⟩ ⟨"T", "PK_PEER", some "PK_ME"⟩
        (some ⟨Canon.Jval.jnull, Crypto.hash Canon.Jval.jnull,
          Trade.edSign (Crypto.hash Canon.Jval.jnull) "PK_PEER", "PK_PEER"⟩) 99 := by
  have hcache : Trade.cachePeerProposal (Trade.edVerify (fun s => s))
      ⟨Canon.Jval.jnull, Crypto.hash Canon.Jval.jnull,
        Trade.edSign (Crypto.hash Canon.Jval.jnull) "PK_PEER", "PK_PEER"⟩ =
      some ⟨Canon.Jval.jnull, Crypto.hash Canon.Jval.jnull,
        Trade.edSign (Crypto.hash Canon.Jval.jnull) "PK_PEER", "PK_PEER"⟩ := by
    simp [Trade.cachePeerProposal, Trade.verifyPeerSignature, Trade.edVerify, Trade.edSign]
  have h := claim_C2_confirm_countersigns_peers_exact_body (fun s => s) "T" ⟨"PK_ME", "PK_ME"⟩
    ⟨"T", "PK_PEER", some "PK_ME"⟩
    ⟨Canon.Jval.jnull, Crypto.hash Canon.Jval.jnull,
      Trade.edSign (Crypto.hash Canon.Jval.jnull) "PK_PEER", "PK_PEER"⟩ 11 99 hcache
  exact ⟨hcache, h.2.1, h.2.2.1⟩

/-- C4: for a trade with registered seller key S and buyer key B (S ≠ B), a
valid cached peer bundle and a valid local identity, both signed over the
same body: if the two signer keys are S and B in either assignment of
local/peer, `confirmCompleteTrade` submits a payload whose `sig_seller` slot
holds the signature produced by S's private key and whose `sig_buyer` slot
holds the one produced by B's — regardless of which of the two was local —
and if neither the peer's nor the local identity's key matches either
registered role, it fails with `RoleResolutionError`. -/
theorem claim_C4_role_assignment_matches_registered_keys :
    ∀ (pubOf : String → String) (tradeId : String) (ident : Trade.Identity)
      (trade : Trade.TradeRec) (peerSig : Trade.CompletionSig) (S B : String) (now : Int),
      trade.seller_pubkey = S → trade.buyer_pubkey = some B → S ≠ B →
      Crypto.hash peerSig.body = peerSig.hash →
      Trade.edVerify pubOf peerSig.hash peerSig.signature peerSig.pubkey = true →
      pubOf ident.privateKey = ident.publicKey →
      ((peerSig.pubkey = S ∧ ident.publicKey = B) ∨
       (peerSig.pubkey = B ∧ ident.publicKey = S) →
        ∃ payload,
          Trade.confirmCompleteTrade pubOf tradeId ident trade (some peerSig) now =
            .ok (.submitted payload) ∧
          pubOf payload.sig_seller.signerPriv = S ∧
          pubOf payload.sig_buyer.signerPriv = B) ∧
      (peerSig.pubkey ≠ S ∧ peerSig.pubkey ≠ B ∧ ident.publicKey ≠ S ∧ ident.publicKey ≠ B →
        Trade.confirmCompleteTrade pubOf tradeId ident trade (some peerSig) now =
          .error .roleResolutionError) := by
  intro pubOf tradeId ident trade peerSig S B now hS hB hSB hbh hpv hid
  have hpmsg : peerSig.signature.msgHex = peerSig.hash := (Trade.edVerify_true_iff.mp hpv).1
  have hppub : pubOf peerSig.signature.signerPriv = peerSig.pubkey :=
    (Trade.edVerify_true_iff.mp hpv).2
  set mySig := Trade.signCompleteWithBody ident peerSig.body with hmy
  have hmv : Trade.edVerify pubOf mySig.hash mySig.signature mySig.pubkey = true :=
    Trade.edVerify_true_iff.mpr ⟨rfl, hid⟩
  have hmh : Crypto.hash mySig.body = mySig.hash := rfl
  have hmyhash : mySig.hash = peerSig.hash := hbh
  constructor
  · intro hcase
    rcases hcase with ⟨hp, hm⟩ | ⟨hp, hm⟩
    · -- peer is the seller, local identity the buyer
      have hr : Trade.resolveRoles ident trade mySig peerSig = .ok (mySig, peerSig) := by
        unfold Trade.resolveRoles
        rw [hS, hp]
        simp
      refine ⟨⟨tradeId, peerSig.hash, peerSig.signature, mySig.signature⟩, ?_, ?_, ?_⟩
      · calc Trade.confirmCompleteTrade pubOf tradeId ident trade (some peerSig) now
            = (Trade.submitBothSignatures pubOf tradeId mySig peerSig).map .submitted := by
              rw [Trade.confirm_some_eq, ← hmy, hr]
          _ = .ok (.submitted ⟨tradeId, peerSig.hash, peerSig.signature, mySig.signature⟩) := by
              rw [@Trade.submitBoth_ok_of pubOf tradeId mySig peerSig hmh hbh
                hmyhash.symm hmv hpv]
              rfl
      · simpa [hppub] using hp
      · exact hid.trans hm
    · -- peer is the buyer, local identity the seller
      have hr : Trade.resolveRoles ident trade mySig peerSig = .ok (peerSig, mySig) := by
        unfold Trade.resolveRoles
        rw [hS, hB, hp]
        have : ¬ B = S := fun h => hSB h.symm
        simp [this]
      refine ⟨⟨tradeId, mySig.hash, mySig.signature, peerSig.signature⟩, ?_, ?_, ?_⟩
      · calc Trade.confirmCompleteTrade pubOf tradeId ident trade (some peerSig) now
            = (Trade.submitBothSignatures pubOf tradeId peerSig mySig).map .submitted := by
              rw [Trade.confirm_some_eq, ← hmy, hr]
          _ = .ok (.submitted ⟨tradeId, mySig.hash, mySig.signature, peerSig.signature⟩) := by
              rw [@Trade.submitBoth_ok_of pubOf tradeId peerSig mySig hbh hmh
                hmyhash hpv hmv]
              rfl
      · exact hid.trans hm
      · simpa [hppub] using hp
  · intro ⟨h1, h2, h3, h4⟩
    have hr : Trade.resolveRoles ident trade mySig peerSig = .error .roleResolutionError := by
      unfold Trade.resolveRoles
      rw [hS, hB]
      simp [h1, h2, h3, h4]
    rw [Trade.confirm_some_eq, ← hmy, hr]

/-- Witness for C4: concrete keys (public keys modeled by the identity
`pubOf`): seller "S", buyer "B"; the peer bundle is signed by S and the local
identity is B — the payload puts S's signature in `sig_seller` and B's in
`sig_buyer`; and a foreign peer/identity pair is rejected with
`RoleResolutionError`. -/
theorem claim_C4_role_assignment_matches_registered_keys_witness :
    (∃ payload,
      Trade.confirmCompleteTrade (fun s => s) "T" ⟨"B", "B"⟩ ⟨"T", "S", some "B"⟩
          (some ⟨Canon.Jval.jnull, Crypto.hash Canon.Jval.jnull,
            Trade.edSign (Crypto.hash Canon.Jval.jnull) "S", "S"⟩) 3 =
        .ok (.submitted payload) ∧
      (fun s => s) payload.sig_seller.signerPriv = "S" ∧
      (fun s => s) payload.sig_buyer.signerPriv = "B") ∧
    Trade.confirmCompleteTrade (fun s => s) "T" ⟨"X", "X"⟩ ⟨"T", "S", some "B"⟩
        (some ⟨Canon.Jval.jnull, Crypto.hash Canon.Jval.jnull,
          Trade.edSign (Crypto.hash Canon.Jval.jnull) "Y", "Y"⟩) 3 =
      .error .roleResolutionError := by
  have h1 := claim_C4_role_assignment_matches_registered_keys (fun s => s) "T" ⟨"B", "B"⟩
    ⟨"T", "S", some "B"⟩
    ⟨Canon.Jval.jnull, Crypto.hash Canon.Jval.jnull,
      Trade.edSign (Crypto.hash Canon.Jval.jnull) "S", "S"⟩ "S" "B" 3
    rfl rfl (by decide) rfl
    (by simp [Trade.edVerify, Trade.edSign]) rfl
  have h2 := claim_C4_role_assignment_matches_registered_keys (fun s => s) "T" ⟨"X", "X"⟩
    ⟨"T", "S", some "B"⟩
    ⟨Canon.Jval.jnull, Crypto.hash Canon.Jval.jnull,
      Trade.edSign (Crypto.hash Canon.Jval.jnull) "Y", "Y"⟩ "S" "B" 3
    rfl rfl (by decide) rfl
    (by simp [Trade.edVerify, Trade.edSign]) rfl
  exact ⟨h1.1 (.inl ⟨rfl, rfl⟩), h2.2 ⟨by decide, by decide, by decide, by decide⟩⟩

/-- C6 counterexample: `verify` does NOT return a boolean for every input.
With the signature string "%%%" — not base64 — `atob` inside `base64ToBuf`
throws (`none` in the model) and the exception propagates out of `verify`,
even under a verification primitive that accepts everything (showing the
failure happens before, and independently of, the primitive); the claim
says malformed signature bytes yield `false` rather than an error. The
public key used is valid base64 of 32 bytes, so the key import succeeds. -/
theorem claim_C6_counterexample :
    Crypto.verify (fun _ _ _ => true) "00ff" "%%%" Fixtures.pk32b64 = none ∧
    Crypto.base64ToBuf "%%%" = none ∧
    (Crypto.base64ToBuf Fixtures.pk32b64).map List.length = some 32 := by
  refine ⟨?_, by decide, by decide⟩
  have hpk : Crypto.base64ToBuf Fixtures.pk32b64 = some (List.replicate 32 0) := by decide
  unfold Crypto.verify
  rw [hpk]
  have : Crypto.base64ToBuf "%%%" = none := by decide
  simp [this]

/-- C6 amended: `verify` returns a boolean — `false` rather than a thrown
error when the signature does not verify — for all inputs whose base64
decodings succeed (and whose public key decodes to the 32 bytes a raw
Ed25519 import requires); its value is exactly the WebCrypto primitive's
verdict on the decoded bytes. For a signature string that is not valid
base64, `atob` throws and `verify` propagates the exception instead of
returning false (see the counterexample). -/
theorem claim_C6_verify_returns_boolean_on_valid_base64 :
    ∀ (prim : List Nat → List Nat → List Nat → Bool) (hashHex sigB64 pubKeyB64 : String)
      (pkBytes sigBytes : List Nat),
      Crypto.base64ToBuf pubKeyB64 = some pkBytes → pkBytes.length = 32 →
      Crypto.base64ToBuf sigB64 = some sigBytes →
      Crypto.verify prim hashHex sigB64 pubKeyB64 =
        some (prim pkBytes sigBytes (Crypto.hexToBuf hashHex)) := by
  intro prim hashHex sigB64 pubKeyB64 pkBytes sigBytes hpk hlen hsig
  unfold Crypto.verify
  simp [hpk, hlen, hsig]

/-- Witness for the amended C6: a concrete valid-base64 signature ("AA==",
one zero byte — not a plausible Ed25519 signature) under the all-rejecting
primitive (WebCrypto returns false for wrong-length signatures): `verify`
returns `some false`, it does not throw. -/
theorem claim_C6_verify_returns_boolean_on_valid_base64_witness :
    Crypto.verify (fun _ _ _ => false) "00ff" "AA==" Fixtures.pk32b64 = some false :=
  claim_C6_verify_returns_boolean_on_valid_base64 (fun _ _ _ => false) "00ff" "AA=="
    Fixtures.pk32b64 (List.replicate 32 0) [0] (by decide) (by decide) (by decide)

namespace Canon

theorem digit_char_isDigit : ∀ d : Nat, d < 10 → (Char.ofNat (48 + d)).isDigit = true := by
  decide

theorem digit_char_toNat : ∀ d : Nat, d < 10 → (Char.ofNat (48 + d)).toNat = 48 + d := by
  decide

theorem natToDigits_ne_nil (n : Nat) : natToDigits n ≠ [] := by
  unfold natToDigits
  split
  · simp
  · simp

theorem natToDigits_all_digits (n : Nat) : ∀ c ∈ natToDigits n, c.isDigit = true := by
  induction n using Nat.strong_induction_on with
  | _ n IH =>
    unfold natToDigits
    split
    · next h =>
      intro c hc
      simp only [List.mem_singleton] at hc
      subst hc
      exact digit_char_isDigit n h
    · next h =>
      intro c hc
      rw [List.mem_append] at hc
      rcases hc with hc | hc
      · exact IH (n / 10) (Nat.div_lt_self (by omega) (by omega)) c hc
      · simp only [List.mem_singleton] at hc
        subst hc
        exact digit_char_isDigit (n % 10) (Nat.mod_lt _ (by omega))

theorem digitsVal_append_one (xs : List Char) (c : Char) :
    digitsVal (xs ++ [c]) = digitsVal xs * 10 + (c.toNat - 48) := by
  unfold digitsVal
  rw [List.foldl_append]
  rfl

theorem digitsVal_natToDigits (n : Nat) : digitsVal (natToDigits n) = n := by
  induction n using Nat.strong_induction_on with
  | _ n IH =>
    unfold natToDigits
    split
    · next h =>
      show digitsVal [Char.ofNat (48 + n)] = n
      unfold digitsVal
      simp [digit_char_toNat n h]
    · next h =>
      rw [digitsVal_append_one, IH (n / 10) (Nat.div_lt_self (by omega) (by omega)),
        digit_char_toNat (n % 10) (Nat.mod_lt _ (by omega))]
      omega

/-- Maximal-munch cancellation: two runs of characters satisfying `p`,
each followed by a suffix that does not start with such a character, split an
equal concatenation identically. -/
theorem run_cancel (p : Char → Bool) :
    ∀ (xs : List Char), ∀ (ys : List Char) (r s : List Char),
      (∀ c ∈ xs, p c = true) → (∀ c ∈ ys, p c = true) →
      (∀ c, r.head? = some c → p c = false) → (∀ c, s.head? = some c → p c = false) →
      xs ++ r = ys ++ s → xs = ys ∧ r = s := by
  intro xs
  induction xs with
  | nil =>
    intro ys r s _ hys hr _ heq
    cases ys with
    | nil => exact ⟨rfl, heq⟩
    | cons y t =>
      simp only [List.nil_append, List.cons_append] at heq
      subst heq
      have := hr y rfl
      have := hys y (List.mem_cons_self _ _)
      simp_all
  | cons x xs ih =>
    intro ys r s hxs hys hr hs heq
    cases ys with
    | nil =>
      simp only [List.cons_append, List.nil_append] at heq
      subst heq
      have := hs x rfl
      have := hxs x (List.mem_cons_self _ _)
      simp_all
    | cons y t =>
      simp only [List.cons_append, List.cons.injEq] at heq
      obtain ⟨hxy, htail⟩ := heq
      subst hxy
      obtain ⟨h1, h2⟩ := ih t r s (fun c hc => hxs c (List.mem_cons_of_mem _ hc))
        (fun c hc => hys c (List.mem_cons_of_mem _ hc)) hr hs htail
      exact ⟨by rw [h1], h2⟩

end Canon

namespace Canon

theorem natAbs_eq_of_digits_eq {m n : Nat} (h : natToDigits m = natToDigits n) : m = n := by
  have := digitsVal_natToDigits m
  rw [h, digitsVal_natToDigits] at this
  exact this.symm

theorem serInt_cancel :
    ∀ (a b : Int) (r s : List Char),
      (∀ c, r.head? = some c → c.isDigit = false ∧ c ≠ '-') →
      (∀ c, s.head? = some c → c.isDigit = false ∧ c ≠ '-') →
      serInt a ++ r = serInt b ++ s → a = b ∧ r = s := by
  intro a b r s hr hs heq
  unfold serInt at heq
  by_cases ha : a < 0 <;> by_cases hb : b < 0
  · simp only [ha, hb, if_true, List.cons_append, List.cons.injEq] at heq
    obtain ⟨h1, h2⟩ := run_cancel Char.isDigit (natToDigits a.natAbs) (natToDigits b.natAbs)
      r s (natToDigits_all_digits _) (natToDigits_all_digits _)
      (fun c hc => (hr c hc).1) (fun c hc => (hs c hc).1) heq.2
    have := natAbs_eq_of_digits_eq h1
    exact ⟨by omega, h2⟩
  · exfalso
    simp only [ha, hb, if_true, if_false] at heq
    cases hds : natToDigits b.natAbs with
    | nil => exact natToDigits_ne_nil _ hds
    | cons c t =>
      rw [hds] at heq
      simp only [List.cons_append, List.cons.injEq] at heq
      have hd : c.isDigit = true := natToDigits_all_digits _ c (by rw [hds]; exact List.mem_cons_self _ _)
      rw [← heq.1] at hd
      simp at hd
  · exfalso
    simp only [ha, hb, if_true, if_false] at heq
    cases hds : natToDigits a.natAbs with
    | nil => exact natToDigits_ne_nil _ hds
    | cons c t =>
      rw [hds] at heq
      simp only [List.cons_append, List.cons.injEq] at heq
      have hd : c.isDigit = true := natToDigits_all_digits _ c (by rw [hds]; exact List.mem_cons_self _ _)
      rw [heq.1] at hd
      simp at hd
  · simp only [ha, hb, if_false] at heq
    obtain ⟨h1, h2⟩ := run_cancel Char.isDigit (natToDigits a.natAbs) (natToDigits b.natAbs)
      r s (natToDigits_all_digits _) (natToDigits_all_digits _)
      (fun c hc => (hr c hc).1) (fun c hc => (hs c hc).1) heq
    have := natAbs_eq_of_digits_eq h1
    exact ⟨by omega, h2⟩

end Canon

namespace Canon

theorem char_eq_of_toNat_eq {c1 c2 : Char} (h : c1.toNat = c2.toNat) : c1 = c2 := by
  have := Char.ofNat_toNat c1
  rw [h, Char.ofNat_toNat] at this
  exact this.symm

theorem escChar_classify (c : Char) :
    (escChar c = [c] ∧ c ≠ '"' ∧ c ≠ '\\' ∧ 32 ≤ c.toNat) ∨
    (∃ d, escChar c = ['\\', d] ∧ namedDecode d = some c) ∨
    (escChar c = '\\' :: 'u' :: hex4 c.toNat ∧ c.toNat < 32) := by
  unfold escChar
  split_ifs with h1 h2 h3 h4 h5 h6 h7 h8
  · exact .inr (.inl ⟨'"', rfl, by rw [h1]; rfl⟩)
  · exact .inr (.inl ⟨'\\', rfl, by rw [h2]; rfl⟩)
  · exact .inr (.inl ⟨'b', rfl, by rw [h3]; rfl⟩)
  · exact .inr (.inl ⟨'t', rfl, by rw [h4]; rfl⟩)
  · exact .inr (.inl ⟨'n', rfl, by rw [h5]; rfl⟩)
  · exact .inr (.inl ⟨'f', rfl, by rw [h6]; rfl⟩)
  · exact .inr (.inl ⟨'r', rfl, by rw [h7]; rfl⟩)
  · exact .inr (.inr ⟨rfl, h8⟩)
  · exact .inl ⟨rfl, h1, h2, by omega⟩

theorem escChar_head_ne_quote {c x : Char} {t : List Char} (h : escChar c = x :: t) :
    x ≠ '"' := by
  rcases escChar_classify c with ⟨e, hq, _, _⟩ | ⟨d, e, _⟩ | ⟨e, _⟩ <;> rw [e] at h
  · cases h; exact hq
  · cases h; decide
  · cases h; decide

theorem hex4_inj_lt32 : ∀ m : Nat, m < 32 → ∀ n : Nat, n < 32 → hex4 m = hex4 n → m = n := by
  decide

theorem escChar_cancel {c1 c2 : Char} {x y : List Char}
    (h : escChar c1 ++ x = escChar c2 ++ y) : c1 = c2 ∧ x = y := by
  rcases escChar_classify c1 with ⟨e1, hq1, hb1, hge1⟩ | ⟨d1, e1, hd1⟩ | ⟨e1, hlt1⟩ <;>
    rcases escChar_classify c2 with ⟨e2, hq2, hb2, hge2⟩ | ⟨d2, e2, hd2⟩ | ⟨e2, hlt2⟩ <;>
      rw [e1, e2] at h <;> simp only [List.cons_append, List.nil_append, List.cons.injEq] at h
  · exact ⟨h.1, h.2⟩
  · exact absurd h.1 hb1
  · exact absurd h.1 hb1
  · exact absurd h.1.symm hb2
  · obtain ⟨-, hd, hxy⟩ := h
    rw [hd] at hd1
    rw [hd1] at hd2
    exact ⟨Option.some.inj hd2.symm ▸ rfl, hxy⟩
  · obtain ⟨-, hdu, -⟩ := h
    rw [hdu] at hd1
    rw [show namedDecode 'u' = none from rfl] at hd1
    exact Option.noConfusion hd1
  · exact absurd h.1.symm hb2
  · obtain ⟨-, hdu, -⟩ := h
    rw [← hdu] at hd2
    rw [show namedDecode 'u' = none from rfl] at hd2
    exact Option.noConfusion hd2
  · obtain ⟨-, -, hrest⟩ := h
    unfold hex4 at hrest
    simp only [List.cons_append, List.cons.injEq] at hrest
    obtain ⟨ha, hb, hc, hd, hxy⟩ := hrest
    have hmn : c1.toNat = c2.toNat := by
      apply hex4_inj_lt32 c1.toNat hlt1 c2.toNat hlt2
      unfold hex4
      rw [ha, hb, hc, hd]
    exact ⟨char_eq_of_toNat_eq hmn, hxy⟩

theorem escString_cons (c : Char) (t : List Char) :
    escString (c :: t) = escChar c ++ escString t := by
  simp [escString]

theorem escString_cancel :
    ∀ (s1 s2 r s : List Char),
      escString s1 ++ '"' :: r = escString s2 ++ '"' :: s → s1 = s2 ∧ r = s := by
  intro s1
  induction s1 with
  | nil =>
    intro s2 r s h
    cases s2 with
    | nil =>
      simp only [escString, List.map_nil, List.flatten_nil, List.nil_append,
        List.cons.injEq] at h
      exact ⟨rfl, h.2⟩
    | cons c2 t2 =>
      exfalso
      rw [escString_cons] at h
      rcases hsh : escChar c2 with _ | ⟨x, xs⟩
      · rcases escChar_classify c2 with ⟨e, -⟩ | ⟨d, e, -⟩ | ⟨e, -⟩ <;> rw [e] at hsh <;>
          exact List.noConfusion hsh
      · rw [hsh] at h
        simp only [escString, List.map_nil, List.flatten_nil, List.nil_append,
          List.cons_append, List.cons.injEq] at h
        exact escChar_head_ne_quote hsh h.1.symm
  | cons c1 t1 ih =>
    intro s2 r s h
    cases s2 with
    | nil =>
      exfalso
      rw [escString_cons] at h
      rcases hsh : escChar c1 with _ | ⟨x, xs⟩
      · rcases escChar_classify c1 with ⟨e, -⟩ | ⟨d, e, -⟩ | ⟨e, -⟩ <;> rw [e] at hsh <;>
          exact List.noConfusion hsh
      · rw [hsh] at h
        simp only [escString, List.map_nil, List.flatten_nil, List.nil_append,
          List.cons_append, List.cons.injEq] at h
        exact escChar_head_ne_quote hsh h.1
    | cons c2 t2 =>
      rw [escString_cons, escString_cons, List.append_assoc, List.append_assoc] at h
      obtain ⟨hc, htail⟩ := escChar_cancel h
      obtain ⟨ht, hrs⟩ := ih t2 r s htail
      exact ⟨by rw [hc, ht], hrs⟩

end Canon

namespace Canon

theorem tagOfChar_of_digit {c : Char} (h : c.isDigit = true) : tagOfChar c = 2 := by
  have hn : c ≠ 'n' := by intro he; rw [he] at h; exact absurd h (by decide)
  have ht : c ≠ 't' := by intro he; rw [he] at h; exact absurd h (by decide)
  have hf : c ≠ 'f' := by intro he; rw [he] at h; exact absurd h (by decide)
  unfold tagOfChar
  rw [if_neg hn, if_neg (not_or.mpr ⟨ht, hf⟩), if_pos (Or.inr h)]

theorem canon_head (v : Jval) :
    ∃ c cs, canonicalize v = c :: cs ∧ tagOfChar c = tagJ v := by
  cases v with
  | jnull => exact ⟨'n', _, by rw [canonicalize], by decide⟩
  | jbool b =>
    cases b with
    | true => exact ⟨'t', _, by rw [canonicalize], by decide⟩
    | false => exact ⟨'f', _, by rw [canonicalize], by decide⟩
  | jnum n =>
    rw [canonicalize]
    unfold serInt
    by_cases hn : n < 0
    · exact ⟨'-', _, by rw [if_pos hn], by rfl⟩
    · rw [if_neg hn]
      cases hds : natToDigits n.natAbs with
      | nil => exact absurd hds (natToDigits_ne_nil _)
      | cons c t =>
        refine ⟨c, t, rfl, ?_⟩
        have : c.isDigit = true :=
          natToDigits_all_digits _ c (by rw [hds]; exact List.mem_cons_self _ _)
        rw [tagOfChar_of_digit this]
        rfl
  | jstr s => exact ⟨'"', _, by rw [canonicalize], by rfl⟩
  | jarr l => exact ⟨'[', _, by rw [canonicalize], by rfl⟩
  | jobj l => exact ⟨'{', _, by rw [canonicalize], by rfl⟩

theorem tagJ_le (v : Jval) : tagJ v ≤ 5 := by
  cases v <;> simp [tagJ]

theorem canon_append_tag_eq {a b : Jval} {r s : List Char}
    (h : canonicalize a ++ r = canonicalize b ++ s) : tagJ a = tagJ b := by
  obtain ⟨c1, cs1, e1, t1⟩ := canon_head a
  obtain ⟨c2, cs2, e2, t2⟩ := canon_head b
  rw [e1, e2] at h
  simp only [List.cons_append, List.cons.injEq] at h
  rw [← t1, ← t2, h.1]

theorem canon_head_not_delim {v : Jval} {c : Char} {cs : List Char}
    (h : canonicalize v = c :: cs) : c ≠ ',' ∧ c ≠ ']' ∧ c ≠ '}' := by
  obtain ⟨c', cs', e, t⟩ := canon_head v
  rw [e] at h
  cases h
  have hle := tagJ_le v
  rw [← t] at hle
  refine ⟨?_, ?_, ?_⟩ <;> intro he <;> rw [he] at hle <;> exact absurd hle (by decide)

end Canon

namespace Canon

theorem normalizeEntries_eq_map (l : List (String × Jval)) :
    normalizeEntries l = l.map (fun e => (e.1, normalize e.2)) := by
  induction l with
  | nil => rw [normalizeEntries]; rfl
  | cons e t ih => cases e; rw [normalizeEntries, ih]; rfl

theorem normalizeList_eq_map (l : List Jval) :
    normalizeList l = l.map normalize := by
  induction l with
  | nil => rw [normalizeList]; rfl
  | cons x t ih => rw [normalizeList, ih]; rfl

theorem orderedInsert_map_comm (f : Jval → Jval) (x : String × Jval) :
    ∀ l : List (String × Jval),
      (l.map (fun e => (e.1, f e.2))).orderedInsert entryLE (x.1, f x.2) =
        (l.orderedInsert entryLE x).map (fun e => (e.1, f e.2)) := by
  intro l
  induction l with
  | nil => rfl
  | cons y t ih =>
    simp only [List.map_cons, List.orderedInsert]
    by_cases h : entryLE x y
    · rw [if_pos (show entryLE (x.1, f x.2) (y.1, f y.2) from h), if_pos h]
      rfl
    · rw [if_neg (show ¬entryLE (x.1, f x.2) (y.1, f y.2) from h), if_neg h, List.map_cons, ih]

theorem insertionSort_map_comm (f : Jval → Jval) :
    ∀ l : List (String × Jval),
      List.insertionSort entryLE (l.map (fun e => (e.1, f e.2))) =
        (List.insertionSort entryLE l).map (fun e => (e.1, f e.2)) := by
  intro l
  induction l with
  | nil => rfl
  | cons x t ih =>
    simp only [List.map_cons, List.insertionSort]
    rw [ih, orderedInsert_map_comm]

theorem jsize_lt_of_mem_list {x : Jval} : ∀ {l : List Jval}, x ∈ l → jsize x < jsizeList l + 1 := by
  intro l
  induction l with
  | nil => intro h; simp at h
  | cons y t ih =>
    intro h
    rw [jsizeList]
    rcases List.mem_cons.mp h with h | h
    · subst h; omega
    · have := ih h; omega

theorem jsize_lt_of_mem_entries {k : String} {v : Jval} :
    ∀ {l : List (String × Jval)}, (k, v) ∈ l → jsize v < jsizeEntries l + 1 := by
  intro l
  induction l with
  | nil => intro h; simp at h
  | cons e t ih =>
    intro h
    cases e with
    | mk k' v' =>
      rw [jsizeEntries]
      rcases List.mem_cons.mp h with h | h
      · cases h; omega
      · have := ih h; omega

theorem normalize_idem : ∀ v : Jval, normalize (normalize v) = normalize v := by
  have main : ∀ N v, jsize v ≤ N → normalize (normalize v) = normalize v := by
    intro N
    induction N using Nat.strong_induction_on with
    | _ N IH =>
      intro v hv
      cases v with
      | jnull => rfl
      | jbool b => rfl
      | jnum n => rfl
      | jstr s => rfl
      | jarr l =>
        rw [normalize, normalize, normalizeList_eq_map, normalizeList_eq_map, List.map_map]
        rw [jsize] at hv
        congr 1
        apply List.map_congr_left
        intro x hx
        have hlt : jsize x < N := by
          have := jsize_lt_of_mem_list hx
          omega
        exact IH (jsize x) hlt x le_rfl
      | jobj l =>
        rw [jsize] at hv
        rw [normalize, normalize, normalizeEntries_eq_map, normalizeEntries_eq_map,
          ← insertionSort_map_comm]
        rw [(List.sorted_insertionSort entryLE
          ((l.map (fun e => (e.1, normalize e.2))).map
            (fun e => (e.1, normalize e.2)))).insertionSort_eq]
        congr 1
        apply congrArg
        rw [List.map_map]
        apply List.map_congr_left
        intro e he
        cases e with
        | mk k x =>
          have hlt : jsize x < N := by
            have := jsize_lt_of_mem_entries he
            omega
          show (k, normalize (normalize x)) = (k, normalize x)
          rw [IH (jsize x) hlt x le_rfl]
  exact fun v => main (jsize v) v le_rfl

end Canon

namespace Canon

theorem canonList_congr :
    ∀ l : List Jval, (∀ x ∈ l, canonicalize (normalize x) = canonicalize x) →
      canonList (normalizeList l) = canonList l := by
  intro l
  induction l with
  | nil => intro _; rw [normalizeList]
  | cons x t ih =>
    intro h
    rw [normalizeList]
    cases t with
    | nil =>
      rw [normalizeList, canonList, canonList]
      exact h x (List.mem_cons_self _ _)
    | cons y ys =>
      have ht := ih (fun z hz => h z (List.mem_cons_of_mem _ hz))
      rw [normalizeList] at ht
      rw [normalizeList]
      rw [show canonList (normalize x :: normalize y :: normalizeList ys) =
          canonicalize (normalize x) ++ ',' :: canonList (normalize y :: normalizeList ys)
        from by rw [canonList]; all_goals simp]
      rw [show canonList (x :: y :: ys) = canonicalize x ++ ',' :: canonList (y :: ys)
        from by rw [canonList]; all_goals simp]
      rw [h x (List.mem_cons_self _ _), ht]

theorem canonEntries_congr :
    ∀ m : List (String × Jval),
      (∀ e ∈ m, canonicalize (normalize e.2) = canonicalize e.2) →
      canonEntries (m.map (fun e => (e.1, normalize e.2))) = canonEntries m := by
  intro m
  induction m with
  | nil => intro _; rfl
  | cons e t ih =>
    intro h
    cases e with
    | mk k x =>
      rw [List.map_cons]
      cases t with
      | nil =>
        rw [show (List.map (fun e => (e.1, normalize e.2)) ([] : List (String × Jval))) = []
          from rfl]
        rw [canonEntries, canonEntries]
        rw [h (k, x) (List.mem_cons_self _ _)]
      | cons e2 t2 =>
        cases e2 with
        | mk k2 x2 =>
          have ht := ih (fun z hz => h z (List.mem_cons_of_mem _ hz))
          rw [List.map_cons] at ht
          rw [List.map_cons]
          rw [show canonEntries ((k, normalize x) :: (k2, normalize x2) ::
              List.map (fun e => (e.1, normalize e.2)) t2) =
            ('"' :: (k.data ++ '"' :: ':' :: canonicalize (normalize x))) ++
              ',' :: canonEntries ((k2, normalize x2) ::
                List.map (fun e => (e.1, normalize e.2)) t2)
            from by rw [canonEntries]; all_goals simp]
          rw [show canonEntries ((k, x) :: (k2, x2) :: t2) =
            ('"' :: (k.data ++ '"' :: ':' :: canonicalize x)) ++
              ',' :: canonEntries ((k2, x2) :: t2)
            from by rw [canonEntries]; all_goals simp]
          rw [h (k, x) (List.mem_cons_self _ _), ht]

theorem canon_norm : ∀ v : Jval, canonicalize (normalize v) = canonicalize v := by
  have main : ∀ N v, jsize v ≤ N → canonicalize (normalize v) = canonicalize v := by
    intro N
    induction N using Nat.strong_induction_on with
    | _ N IH =>
      have IHv : ∀ x : Jval, jsize x < N → canonicalize (normalize x) = canonicalize x :=
        fun x hx => IH (jsize x) hx x le_rfl
      intro v hv
      cases v with
      | jnull => rw [normalize]
      | jbool b => rw [normalize]
      | jnum n => rw [normalize]
      | jstr s => rw [normalize]
      | jarr l =>
        rw [jsize] at hv
        rw [normalize, canonicalize, canonicalize, canonList_congr]
        intro x hx
        apply IHv
        have := jsize_lt_of_mem_list hx
        omega
      | jobj l =>
        rw [jsize] at hv
        rw [normalize, canonicalize, canonicalize, normalizeEntries_eq_map,
          (List.sorted_insertionSort entryLE
            (l.map (fun e => (e.1, normalize e.2)))).insertionSort_eq]
        rw [insertionSort_map_comm, canonEntries_congr]
        intro e he
        apply IHv
        have hmem : e ∈ l := (List.perm_insertionSort entryLE _).mem_iff.mp he
        cases e with
        | mk k x =>
          show jsize x < N
          have := jsize_lt_of_mem_entries hmem
          omega
  exact fun v => main (jsize v) v le_rfl

end Canon

namespace Canon

theorem nodupKeys_iff : ∀ ks : List String, nodupKeys ks = true ↔ ks.Nodup := by
  intro ks
  induction ks with
  | nil => simp [nodupKeys]
  | cons k t ih =>
    rw [nodupKeys]
    simp only [Bool.and_eq_true, Bool.not_eq_true']
    rw [ih, List.nodup_cons]
    constructor
    · intro ⟨h1, h2⟩
      exact ⟨by simpa using h1, h2⟩
    · intro ⟨h1, h2⟩
      exact ⟨by simpa using h1, h2⟩

theorem wfList_iff : ∀ l : List Jval, wfList l = true ↔ ∀ x ∈ l, wf x = true := by
  intro l
  induction l with
  | nil => simp [wfList]
  | cons x t ih =>
    rw [wfList, Bool.and_eq_true, ih]
    constructor
    · intro ⟨h1, h2⟩ z hz
      rcases List.mem_cons.mp hz with hz | hz
      · rw [hz]; exact h1
      · exact h2 z hz
    · intro h
      exact ⟨h x (List.mem_cons_self _ _), fun z hz => h z (List.mem_cons_of_mem _ hz)⟩

theorem wfEntries_iff : ∀ l : List (String × Jval),
    wfEntries l = true ↔ ∀ e ∈ l, wf e.2 = true := by
  intro l
  induction l with
  | nil => simp [wfEntries]
  | cons e t ih =>
    cases e with
    | mk k v =>
      rw [wfEntries, Bool.and_eq_true, ih]
      constructor
      · intro ⟨h1, h2⟩ z hz
        rcases List.mem_cons.mp hz with hz | hz
        · rw [hz]; exact h1
        · exact h2 z hz
      · intro h
        exact ⟨h (k, v) (List.mem_cons_self _ _), fun z hz => h z (List.mem_cons_of_mem _ hz)⟩

theorem safeList_iff : ∀ l : List Jval, safeList l = true ↔ ∀ x ∈ l, safe x = true := by
  intro l
  induction l with
  | nil => simp [safeList]
  | cons x t ih =>
    rw [safeList, Bool.and_eq_true, ih]
    constructor
    · intro ⟨h1, h2⟩ z hz
      rcases List.mem_cons.mp hz with hz | hz
      · rw [hz]; exact h1
      · exact h2 z hz
    · intro h
      exact ⟨h x (List.mem_cons_self _ _), fun z hz => h z (List.mem_cons_of_mem _ hz)⟩

theorem safeEntries_iff : ∀ l : List (String × Jval),
    safeEntries l = true ↔
      ∀ e ∈ l, e.1.data.all safeKeyChar = true ∧ safe e.2 = true := by
  intro l
  induction l with
  | nil => simp [safeEntries]
  | cons e t ih =>
    cases e with
    | mk k v =>
      rw [safeEntries, Bool.and_eq_true, Bool.and_eq_true, ih]
      constructor
      · intro ⟨⟨h1, h2⟩, h3⟩ z hz
        rcases List.mem_cons.mp hz with hz | hz
        · rw [hz]; exact ⟨h1, h2⟩
        · exact h3 z hz
      · intro h
        exact ⟨h (k, v) (List.mem_cons_self _ _),
          fun z hz => h z (List.mem_cons_of_mem _ hz)⟩

theorem map_fst_map_value (f : Jval → Jval) (l : List (String × Jval)) :
    (l.map (fun e => (e.1, f e.2))).map Prod.fst = l.map Prod.fst := by
  rw [List.map_map]
  rfl

theorem wf_normalize : ∀ v : Jval, wf v = true → wf (normalize v) = true := by
  have main : ∀ N v, jsize v ≤ N → wf v = true → wf (normalize v) = true := by
    intro N
    induction N using Nat.strong_induction_on with
    | _ N IH =>
      have IHv : ∀ x : Jval, jsize x < N → wf x = true → wf (normalize x) = true :=
        fun x hx => IH (jsize x) hx x le_rfl
      intro v hv hwf
      cases v with
      | jnull => exact hwf
      | jbool b => exact hwf
      | jnum n => exact hwf
      | jstr s => exact hwf
      | jarr l =>
        rw [jsize] at hv
        rw [normalize, wf, wfList_iff, normalizeList_eq_map]
        rw [wf, wfList_iff] at hwf
        intro x hx
        obtain ⟨w, hw, hwx⟩ := List.mem_map.mp hx
        rw [← hwx]
        apply IHv w (by have := jsize_lt_of_mem_list hw; omega) (hwf w hw)
      | jobj l =>
        rw [jsize] at hv
        rw [wf, Bool.and_eq_true, nodupKeys_iff, wfEntries_iff] at hwf
        rw [normalize, wf, Bool.and_eq_true, nodupKeys_iff, wfEntries_iff,
          normalizeEntries_eq_map]
        constructor
        · have h1 := List.Perm.map Prod.fst
            (List.perm_insertionSort entryLE (l.map (fun e => (e.1, normalize e.2))))
          rw [map_fst_map_value] at h1
          exact h1.nodup_iff.mpr hwf.1
        · intro e he
          have hmem := (List.perm_insertionSort entryLE _).mem_iff.mp he
          obtain ⟨w, hw, hwe⟩ := List.mem_map.mp hmem
          rw [← hwe]
          exact IHv w.2 (by cases w with | mk k x =>
              have := jsize_lt_of_mem_entries hw; simp only; omega)
            (hwf.2 w hw)
  exact fun v => main (jsize v) v le_rfl

theorem safe_normalize : ∀ v : Jval, safe v = true → safe (normalize v) = true := by
  have main : ∀ N v, jsize v ≤ N → safe v = true → safe (normalize v) = true := by
    intro N
    induction N using Nat.strong_induction_on with
    | _ N IH =>
      have IHv : ∀ x : Jval, jsize x < N → safe x = true → safe (normalize x) = true :=
        fun x hx => IH (jsize x) hx x le_rfl
      intro v hv hsafe
      cases v with
      | jnull => exact hsafe
      | jbool b => exact hsafe
      | jnum n => exact hsafe
      | jstr s => exact hsafe
      | jarr l =>
        rw [jsize] at hv
        rw [normalize, safe, safeList_iff, normalizeList_eq_map]
        rw [safe, safeList_iff] at hsafe
        intro x hx
        obtain ⟨w, hw, hwx⟩ := List.mem_map.mp hx
        rw [← hwx]
        apply IHv w (by have := jsize_lt_of_mem_list hw; omega) (hsafe w hw)
      | jobj l =>
        rw [jsize] at hv
        rw [safe, safeEntries_iff] at hsafe
        rw [normalize, safe, safeEntries_iff, normalizeEntries_eq_map]
        intro e he
        have hmem := (List.perm_insertionSort entryLE _).mem_iff.mp he
        obtain ⟨w, hw, hwe⟩ := List.mem_map.mp hmem
        rw [← hwe]
        refine ⟨(hsafe w hw).1, ?_⟩
        exact IHv w.2 (by cases w with | mk k x =>
            have := jsize_lt_of_mem_entries hw; simp only; omega)
          ((hsafe w hw).2)

  exact fun v => main (jsize v) v le_rfl

theorem map_eq_self_forall {f : Jval → Jval} :
    ∀ {l : List Jval}, l.map f = l → ∀ x ∈ l, f x = x := by
  intro l
  induction l with
  | nil => intro _ x hx; simp at hx
  | cons a t ih =>
    intro h x hx
    rw [List.map_cons, List.cons.injEq] at h
    rcases List.mem_cons.mp hx with hx | hx
    · rw [hx]; exact h.1
    · exact ih h.2 x hx

theorem norm_jarr_elem {l : List Jval} (h : normalize (.jarr l) = .jarr l) :
    ∀ x ∈ l, normalize x = x := by
  rw [normalize, Jval.jarr.injEq, normalizeList_eq_map] at h
  exact map_eq_self_forall h

theorem norm_jobj_sorted {l : List (String × Jval)} (h : normalize (.jobj l) = .jobj l) :
    l.Sorted entryLE := by
  rw [normalize, Jval.jobj.injEq] at h
  rw [← h]
  exact List.sorted_insertionSort entryLE _

theorem norm_jobj_values {l : List (String × Jval)} (h : normalize (.jobj l) = .jobj l) :
    ∀ e ∈ l, normalize e.2 = e.2 := by
  rw [normalize, Jval.jobj.injEq, normalizeEntries_eq_map] at h
  intro e he
  have he2 : e ∈ List.insertionSort entryLE (l.map (fun e => (e.1, normalize e.2))) := by
    rw [h]; exact he
  have hmem := (List.perm_insertionSort entryLE _).mem_iff.mp he2
  obtain ⟨w, hw, hwe⟩ := List.mem_map.mp hmem
  rw [← hwe]
  exact normalize_idem w.2

theorem sorted_perm_nodup_eq :
    ∀ (l1 l2 : List (String × Jval)), l1.Perm l2 → l1.Sorted entryLE →
      l2.Sorted entryLE → (l1.map Prod.fst).Nodup → l1 = l2 := by
  intro l1
  induction l1 with
  | nil =>
    intro l2 hp _ _ _
    exact (hp.symm.eq_nil).symm
  | cons x t ih =>
    intro l2 hp hs1 hs2 hnd
    cases l2 with
    | nil => exact absurd hp.eq_nil (by simp)
    | cons y t2 =>
      have hxy : x = y := by
        have hxin : x ∈ y :: t2 := hp.mem_iff.mp (List.mem_cons_self _ _)
        have hyin : y ∈ x :: t := hp.mem_iff.mpr (List.mem_cons_self _ _)
        rcases List.mem_cons.mp hxin with h | hxt2
        · exact h
        rcases List.mem_cons.mp hyin with h | hyt
        · exact h.symm
        have h1 : entryLE y x := (List.sorted_cons.mp hs2).1 x hxt2
        have h2 : entryLE x y := (List.sorted_cons.mp hs1).1 y hyt
        have hkey : x.1 = y.1 := le_antisymm h2 h1
        exfalso
        rw [List.map_cons, List.nodup_cons] at hnd
        exact hnd.1 (hkey ▸ (List.mem_map.mpr ⟨y, hyt, rfl⟩))
      subst hxy
      have hp' : t.Perm t2 := hp.cons_inv
      have := ih t2 hp' (List.sorted_cons.mp hs1).2 (List.sorted_cons.mp hs2).2
        (by rw [List.map_cons, List.nodup_cons] at hnd; exact hnd.2)
      rw [this]

end Canon

namespace Canon

theorem string_data_inj {s1 s2 : String} (h : s1.data = s2.data) : s1 = s2 := by
  cases s1
  cases s2
  exact congrArg String.mk (by simpa using h)

theorem bnd_head {r : List Char} (hb : isBnd r) :
    ∀ c, r.head? = some c → c = ',' ∨ c = ']' ∨ c = '}' := by
  cases r with
  | nil => intro c hc; exact absurd hc (by simp)
  | cons c0 t =>
    intro c hc
    simp only [List.head?_cons, Option.some.injEq] at hc
    subst hc
    exact hb

theorem delim_not_digit {c : Char} (h : c = ',' ∨ c = ']' ∨ c = '}') :
    c.isDigit = false ∧ c ≠ '-' := by
  rcases h with h | h | h <;> rw [h] <;> exact ⟨by decide, by decide⟩

theorem delim_not_safe_quote {c : Char} (h : c = '"') : safeKeyChar c = false := by
  rw [h]
  decide

theorem canonList_nil : canonList [] = [] := by rw [canonList]

theorem canonList_one_append (x : Jval) (tail : List Char) :
    canonList [x] ++ tail = canonicalize x ++ tail := by
  rw [canonList]

theorem canonList_cons2_append (x y : Jval) (ys : List Jval) (tail : List Char) :
    canonList (x :: y :: ys) ++ tail =
      canonicalize x ++ ',' :: (canonList (y :: ys) ++ tail) := by
  rw [show canonList (x :: y :: ys) = canonicalize x ++ ',' :: canonList (y :: ys)
    from by rw [canonList]; all_goals simp]
  simp [List.append_assoc]

theorem canonEntries_nil : canonEntries [] = [] := by rw [canonEntries]

theorem canonEntries_one_append (k : String) (v : Jval) (tail : List Char) :
    canonEntries [(k, v)] ++ tail = '"' :: (k.data ++ '"' :: ':' :: (canonicalize v ++ tail)) := by
  rw [canonEntries]
  simp [List.append_assoc]

theorem canonEntries_cons2_append (k : String) (v : Jval) (e2 : String × Jval)
    (xs : List (String × Jval)) (tail : List Char) :
    canonEntries ((k, v) :: e2 :: xs) ++ tail =
      '"' :: (k.data ++ '"' :: ':' :: (canonicalize v ++
        ',' :: (canonEntries (e2 :: xs) ++ tail))) := by
  rw [show canonEntries ((k, v) :: e2 :: xs) =
      ('"' :: (k.data ++ '"' :: ':' :: canonicalize v)) ++ ',' :: canonEntries (e2 :: xs)
    from by rw [canonEntries]; all_goals simp]
  simp [List.append_assoc]

end Canon

namespace Canon

theorem canon_cancel_main :
    ∀ N : Nat, ∀ a b : Jval, ∀ r s : List Char,
      jsize a ≤ N →
      wf a = true → safe a = true → normalize a = a →
      wf b = true → safe b = true → normalize b = b →
      isBnd r → isBnd s →
      canonicalize a ++ r = canonicalize b ++ s → a = b ∧ r = s := by
  intro N
  induction N using Nat.strong_induction_on with
  | _ N IH =>
    intro a b r s hsz hwa hsa hna hwb hsb hnb hbr hbs heq
    have IHe : ∀ (x y : Jval) (r' s' : List Char), jsize x < N →
        wf x = true → safe x = true → normalize x = x →
        wf y = true → safe y = true → normalize y = y →
        isBnd r' → isBnd s' →
        canonicalize x ++ r' = canonicalize y ++ s' → x = y ∧ r' = s' :=
      fun x y r' s' hx => IH (jsize x) hx x y r' s' le_rfl
    cases a <;> cases b
    all_goals try (have htag := canon_append_tag_eq heq; simp [tagJ] at htag)
    case jnull.jnull =>
      simp only [canonicalize] at heq
      simp at heq
      exact ⟨rfl, heq⟩
    case jbool.jbool b1 b2 =>
      cases b1 <;> cases b2 <;> simp only [canonicalize] at heq <;> simp at heq <;>
        exact ⟨rfl, heq⟩
    case jnum.jnum n1 n2 =>
      simp only [canonicalize] at heq
      obtain ⟨h1, h2⟩ := serInt_cancel n1 n2 r s
        (fun c hc => delim_not_digit (bnd_head hbr c hc))
        (fun c hc => delim_not_digit (bnd_head hbs c hc)) heq
      exact ⟨by rw [h1], h2⟩
    case jstr.jstr s1 s2 =>
      simp only [canonicalize, List.cons_append, List.append_assoc,
        List.singleton_append, List.cons.injEq, true_and] at heq
      obtain ⟨hd, hrs⟩ := escString_cancel s1.data s2.data r s heq
      exact ⟨by rw [string_data_inj hd], hrs⟩
    case jarr.jarr l1 l2 =>
      simp only [canonicalize, List.cons_append, List.append_assoc,
        List.singleton_append, List.cons.injEq, true_and] at heq
      rw [wf] at hwa hwb
      rw [safe] at hsa hsb
      have hn1 := norm_jarr_elem hna
      have hn2 := norm_jarr_elem hnb
      rw [jsize] at hsz
      have hu : ∀ x ∈ l1, jsize x < N ∧ wf x = true ∧ safe x = true ∧ normalize x = x := by
        intro x hx
        refine ⟨by have := jsize_lt_of_mem_list hx; omega,
          (wfList_iff l1).mp hwa x hx, (safeList_iff l1).mp hsa x hx, hn1 x hx⟩
      have hv : ∀ y ∈ l2, wf y = true ∧ safe y = true ∧ normalize y = y :=
        fun y hy => ⟨(wfList_iff l2).mp hwb y hy, (safeList_iff l2).mp hsb y hy, hn2 y hy⟩
      have listCancel : ∀ (u : List Jval),
          (∀ x ∈ u, jsize x < N ∧ wf x = true ∧ safe x = true ∧ normalize x = x) →
          ∀ (v : List Jval) (r' s' : List Char),
          (∀ y ∈ v, wf y = true ∧ safe y = true ∧ normalize y = y) →
          canonList u ++ ']' :: r' = canonList v ++ ']' :: s' → u = v ∧ r' = s' := by
        intro u
        induction u with
        | nil =>
          intro _ v r' s' hvm hequ
          cases v with
          | nil =>
            simp at hequ
            exact ⟨rfl, hequ⟩
          | cons y t2 =>
            exfalso
            rw [canonList_nil, List.nil_append] at hequ
            obtain ⟨c, cs, hc, -⟩ := canon_head y
            cases t2 with
            | nil =>
              rw [canonList_one_append, hc] at hequ
              simp only [List.cons_append, List.cons.injEq] at hequ
              exact (canon_head_not_delim hc).2.1 hequ.1.symm
            | cons z zs =>
              rw [canonList_cons2_append, hc] at hequ
              simp only [List.cons_append, List.cons.injEq] at hequ
              exact (canon_head_not_delim hc).2.1 hequ.1.symm
        | cons x t ihu =>
          intro hum v r' s' hvm hequ
          cases v with
          | nil =>
            exfalso
            rw [canonList_nil, List.nil_append] at hequ
            obtain ⟨c, cs, hc, -⟩ := canon_head x
            cases t with
            | nil =>
              rw [canonList_one_append, hc] at hequ
              simp only [List.cons_append, List.cons.injEq] at hequ
              exact (canon_head_not_delim hc).2.1 hequ.1
            | cons z zs =>
              rw [canonList_cons2_append, hc] at hequ
              simp only [List.cons_append, List.cons.injEq] at hequ
              exact (canon_head_not_delim hc).2.1 hequ.1
          | cons y t2 =>
            obtain ⟨hx, hwx, hsx, hnx⟩ := hum x (List.mem_cons_self _ _)
            obtain ⟨hwy, hsy, hny⟩ := hvm y (List.mem_cons_self _ _)
            cases t with
            | nil =>
              cases t2 with
              | nil =>
                rw [canonList_one_append, canonList_one_append] at hequ
                obtain ⟨hxy, hrs⟩ := IHe x y (']' :: r') (']' :: s') hx hwx hsx hnx
                  hwy hsy hny (Or.inr (Or.inl rfl)) (Or.inr (Or.inl rfl)) hequ
                simp only [List.cons.injEq, true_and] at hrs
                exact ⟨by rw [hxy], hrs⟩
              | cons z2 zs2 =>
                exfalso
                rw [canonList_one_append, canonList_cons2_append] at hequ
                obtain ⟨-, hrs⟩ := IHe x y (']' :: r')
                  (',' :: (canonList (z2 :: zs2) ++ ']' :: s')) hx hwx hsx hnx
                  hwy hsy hny (Or.inr (Or.inl rfl)) (Or.inl rfl) hequ
                simp at hrs
            | cons z zs =>
              cases t2 with
              | nil =>
                exfalso
                rw [canonList_cons2_append, canonList_one_append] at hequ
                obtain ⟨-, hrs⟩ := IHe x y
                  (',' :: (canonList (z :: zs) ++ ']' :: r')) (']' :: s') hx hwx hsx hnx
                  hwy hsy hny (Or.inl rfl) (Or.inr (Or.inl rfl)) hequ
                simp at hrs
              | cons z2 zs2 =>
                rw [canonList_cons2_append, canonList_cons2_append] at hequ
                obtain ⟨hxy, hrs⟩ := IHe x y
                  (',' :: (canonList (z :: zs) ++ ']' :: r'))
                  (',' :: (canonList (z2 :: zs2) ++ ']' :: s')) hx hwx hsx hnx
                  hwy hsy hny (Or.inl rfl) (Or.inl rfl) hequ
                simp only [List.cons.injEq, true_and] at hrs
                obtain ⟨ht, hr's'⟩ := ihu
                  (fun w hw => hum w (List.mem_cons_of_mem _ hw)) (z2 :: zs2) r' s'
                  (fun w hw => hvm w (List.mem_cons_of_mem _ hw)) hrs
                exact ⟨by rw [hxy, ht], hr's'⟩
      obtain ⟨hl, hrs⟩ := listCancel l1 hu l2 r s hv heq
      exact ⟨by rw [hl], hrs⟩
    case jobj.jobj l1 l2 =>
      have hsort1 : List.insertionSort entryLE l1 = l1 := (norm_jobj_sorted hna).insertionSort_eq
      have hsort2 : List.insertionSort entryLE l2 = l2 := (norm_jobj_sorted hnb).insertionSort_eq
      simp only [canonicalize] at heq
      rw [hsort1, hsort2] at heq
      simp only [List.cons_append, List.append_assoc, List.singleton_append,
        List.cons.injEq, true_and] at heq
      rw [safe, safeEntries_iff] at hsa hsb
      rw [wf, Bool.and_eq_true, wfEntries_iff] at hwa hwb
      have hn1 := norm_jobj_values hna
      have hn2 := norm_jobj_values hnb
      rw [jsize] at hsz
      have hu : ∀ e ∈ l1, jsize e.2 < N ∧ e.1.data.all safeKeyChar = true ∧
          wf e.2 = true ∧ safe e.2 = true ∧ normalize e.2 = e.2 := by
        intro e he
        refine ⟨?_, (hsa e he).1, hwa.2 e he, (hsa e he).2, hn1 e he⟩
        cases e with
        | mk k x =>
          have := jsize_lt_of_mem_entries he
          simp only
          omega
      have hv : ∀ e ∈ l2, e.1.data.all safeKeyChar = true ∧
          wf e.2 = true ∧ safe e.2 = true ∧ normalize e.2 = e.2 :=
        fun e he => ⟨(hsb e he).1, hwb.2 e he, (hsb e he).2, hn2 e he⟩
      have entCancel : ∀ (u : List (String × Jval)),
          (∀ e ∈ u, jsize e.2 < N ∧ e.1.data.all safeKeyChar = true ∧
            wf e.2 = true ∧ safe e.2 = true ∧ normalize e.2 = e.2) →
          ∀ (v : List (String × Jval)) (r' s' : List Char),
          (∀ e ∈ v, e.1.data.all safeKeyChar = true ∧
            wf e.2 = true ∧ safe e.2 = true ∧ normalize e.2 = e.2) →
          canonEntries u ++ '}' :: r' = canonEntries v ++ '}' :: s' → u = v ∧ r' = s' := by
        intro u
        induction u with
        | nil =>
          intro _ v r' s' hvm hequ
          cases v with
          | nil =>
            simp at hequ
            exact ⟨rfl, hequ⟩
          | cons e2 t2 =>
            exfalso
            rw [canonEntries_nil, List.nil_append] at hequ
            cases e2 with
            | mk k2 v2 =>
              cases t2 with
              | nil =>
                rw [canonEntries_one_append] at hequ
                simp at hequ
              | cons e3 t3 =>
                rw [canonEntries_cons2_append] at hequ
                simp at hequ
        | cons e1 t ihu =>
          intro hum v r' s' hvm hequ
          cases v with
          | nil =>
            exfalso
            rw [canonEntries_nil, List.nil_append] at hequ
            cases e1 with
            | mk k1 v1 =>
              cases t with
              | nil =>
                rw [canonEntries_one_append] at hequ
                simp at hequ
              | cons e3 t3 =>
                rw [canonEntries_cons2_append] at hequ
                simp at hequ
          | cons e2 t2 =>
            cases e1 with
            | mk k1 v1 =>
              cases e2 with
              | mk k2 v2 =>
                obtain ⟨hx, hk1, hwx, hsx, hnx⟩ := hum (k1, v1) (List.mem_cons_self _ _)
                obtain ⟨hk2, hwy, hsy, hny⟩ := hvm (k2, v2) (List.mem_cons_self _ _)
                have keyStep : ∀ (T1 T2 : List Char),
                    k1.data ++ '"' :: ':' :: (canonicalize v1 ++ T1) =
                      k2.data ++ '"' :: ':' :: (canonicalize v2 ++ T2) →
                    k1 = k2 ∧ canonicalize v1 ++ T1 = canonicalize v2 ++ T2 := by
                  intro T1 T2 hkey
                  obtain ⟨hks, htail⟩ := run_cancel safeKeyChar k1.data k2.data
                    ('"' :: ':' :: (canonicalize v1 ++ T1))
                    ('"' :: ':' :: (canonicalize v2 ++ T2))
                    (fun c hc => by
                      have := List.all_eq_true.mp hk1 c hc
                      simpa using this)
                    (fun c hc => by
                      have := List.all_eq_true.mp hk2 c hc
                      simpa using this)
                    (fun c hc => by
                      simp only [List.head?_cons, Option.some.injEq] at hc
                      rw [← hc]; decide)
                    (fun c hc => by
                      simp only [List.head?_cons, Option.some.injEq] at hc
                      rw [← hc]; decide)
                    hkey
                  simp only [List.cons.injEq, true_and] at htail
                  exact ⟨string_data_inj hks, htail⟩
                cases t with
                | nil =>
                  cases t2 with
                  | nil =>
                    rw [canonEntries_one_append, canonEntries_one_append] at hequ
                    simp only [List.cons.injEq, true_and] at hequ
                    obtain ⟨hk, hval⟩ := keyStep _ _ hequ
                    obtain ⟨hxy, hrs⟩ := IHe v1 v2 ('}' :: r') ('}' :: s') hx hwx hsx hnx
                      hwy hsy hny (Or.inr (Or.inr rfl)) (Or.inr (Or.inr rfl)) hval
                    simp only [List.cons.injEq, true_and] at hrs
                    exact ⟨by rw [hk, hxy], hrs⟩
                  | cons e3 t3 =>
                    exfalso
                    rw [canonEntries_one_append, canonEntries_cons2_append] at hequ
                    simp only [List.cons.injEq, true_and] at hequ
                    obtain ⟨-, hval⟩ := keyStep _ _ hequ
                    obtain ⟨-, hrs⟩ := IHe v1 v2 ('}' :: r')
                      (',' :: (canonEntries (e3 :: t3) ++ '}' :: s')) hx hwx hsx hnx
                      hwy hsy hny (Or.inr (Or.inr rfl)) (Or.inl rfl) hval
                    simp at hrs
                | cons e3 t3 =>
                  cases t2 with
                  | nil =>
                    exfalso
                    rw [canonEntries_cons2_append, canonEntries_one_append] at hequ
                    simp only [List.cons.injEq, true_and] at hequ
                    obtain ⟨-, hval⟩ := keyStep _ _ hequ
                    obtain ⟨-, hrs⟩ := IHe v1 v2
                      (',' :: (canonEntries (e3 :: t3) ++ '}' :: r')) ('}' :: s')
                      hx hwx hsx hnx hwy hsy hny (Or.inl rfl) (Or.inr (Or.inr rfl)) hval
                    simp at hrs
                  | cons e4 t4 =>
                    rw [canonEntries_cons2_append, canonEntries_cons2_append] at hequ
                    simp only [List.cons.injEq, true_and] at hequ
                    obtain ⟨hk, hval⟩ := keyStep _ _ hequ
                    obtain ⟨hxy, hrs⟩ := IHe v1 v2
                      (',' :: (canonEntries (e3 :: t3) ++ '}' :: r'))
                      (',' :: (canonEntries (e4 :: t4) ++ '}' :: s'))
                      hx hwx hsx hnx hwy hsy hny (Or.inl rfl) (Or.inl rfl) hval
                    simp only [List.cons.injEq, true_and] at hrs
                    obtain ⟨ht, hr's'⟩ := ihu
                      (fun w hw => hum w (List.mem_cons_of_mem _ hw)) (e4 :: t4) r' s'
                      (fun w hw => hvm w (List.mem_cons_of_mem _ hw)) hrs
                    exact ⟨by rw [hk, hxy, ht], hr's'⟩
      obtain ⟨hl, hrs⟩ := entCancel l1 hu l2 r s hv heq
      exact ⟨by rw [hl], hrs⟩

end Canon

namespace Canon

theorem canonicalize_inj_of_norm {a b : Jval}
    (hwa : wf a = true) (hsa : safe a = true) (hwb : wf b = true) (hsb : safe b = true)
    (h : canonicalize a = canonicalize b) : normalize a = normalize b := by
  have h' : canonicalize (normalize a) ++ [] = canonicalize (normalize b) ++ [] := by
    rw [canon_norm, canon_norm, List.append_nil, List.append_nil]
    exact h
  exact (canon_cancel_main (jsize (normalize a)) (normalize a) (normalize b) [] []
    le_rfl (wf_normalize a hwa) (safe_normalize a hsa) (normalize_idem a)
    (wf_normalize b hwb) (safe_normalize b hsb) (normalize_idem b)
    trivial trivial h').1

theorem canon_jobj_perm {l1 l2 : List (String × Jval)} (hperm : l1.Perm l2)
    (hnd : nodupKeys (l1.map Prod.fst) = true) :
    canonicalize (.jobj l1) = canonicalize (.jobj l2) := by
  have hs : List.insertionSort entryLE l1 = List.insertionSort entryLE l2 := by
    apply sorted_perm_nodup_eq
    · exact (List.perm_insertionSort entryLE l1).trans
        (hperm.trans (List.perm_insertionSort entryLE l2).symm)
    · exact List.sorted_insertionSort entryLE l1
    · exact List.sorted_insertionSort entryLE l2
    · have h1 := List.Perm.map Prod.fst (List.perm_insertionSort entryLE l1)
      exact h1.nodup_iff.mpr ((nodupKeys_iff _).mp hnd)
  simp only [canonicalize]
  rw [hs]

end Canon

/-- C1 amended: restricted to wellformed values (objects with distinct keys,
the invariant every runtime JavaScript object satisfies) whose object KEYS
contain no characters that JSON string escaping rewrites (no quote,
backslash, or control character — `canonicalize` interpolates keys without
escaping them, which is what breaks the unrestricted claim, see the
counterexample): `canonicalize(a) = canonicalize(b)` iff `a` and `b` are
structurally equal under the canonical form (equal after recursively
sorting object keys); structural equality implies `hash(a) = hash(b)`; and
two objects that differ only in key insertion order canonicalize — and
therefore hash — identically. (The converse at the hash level, digest
equality implying structural equality, holds only modulo SHA-256 collisions
and is accordingly not part of the model's guarantees.) -/
theorem claim_C1_canonicalize_injective_on_escape_free_keys :
    ∀ a b : Canon.Jval,
      Canon.wf a = true → Canon.safe a = true →
      Canon.wf b = true → Canon.safe b = true →
      ((Canon.canonicalize a = Canon.canonicalize b ↔ Canon.normalize a = Canon.normalize b) ∧
       (Canon.normalize a = Canon.normalize b → Crypto.hash a = Crypto.hash b)) ∧
      (∀ l1 l2 : List (String × Canon.Jval), l1.Perm l2 →
        Canon.nodupKeys (l1.map Prod.fst) = true →
        Canon.canonicalize (Canon.Jval.jobj l1) = Canon.canonicalize (Canon.Jval.jobj l2) ∧
        Crypto.hash (Canon.Jval.jobj l1) = Crypto.hash (Canon.Jval.jobj l2)) := by
  intro a b hwa hsa hwb hsb
  have canonOfNorm : ∀ x y : Canon.Jval, Canon.normalize x = Canon.normalize y →
      Canon.canonicalize x = Canon.canonicalize y := by
    intro x y h
    rw [← Canon.canon_norm x, ← Canon.canon_norm y, h]
  refine ⟨⟨⟨fun h => Canon.canonicalize_inj_of_norm hwa hsa hwb hsb h,
    fun h => canonOfNorm a b h⟩, fun h => ?_⟩, fun l1 l2 hperm hnd => ?_⟩
  · unfold Crypto.hash
    exact congrArg Crypto.sha256Hex (canonOfNorm a b h)
  · refine ⟨Canon.canon_jobj_perm hperm hnd, ?_⟩
    unfold Crypto.hash
    exact congrArg Crypto.sha256Hex (Canon.canon_jobj_perm hperm hnd)

/-- C1 counterexample: the claim's unrestricted iff is false on the code.
`canonicalize` emits object keys without escaping, so the one-entry object
with the quote-bearing key `a":1,"b` (value 2) and the two-entry object
`(a ↦ 1, b ↦ 2)` serialize to the very same bytes — both produce the
string of characters of `{"a":1,"b":2}` — hence `hash` collides on them,
yet they are structurally distinct (their canonical forms differ; both are
wellformed runtime objects). -/
theorem claim_C1_counterexample :
    Canon.canonicalize (Canon.Jval.jobj [("a\":1,\"b", Canon.Jval.jnum 2)]) =
      Canon.canonicalize (Canon.Jval.jobj [("a", Canon.Jval.jnum 1), ("b", Canon.Jval.jnum 2)]) ∧
    Crypto.hash (Canon.Jval.jobj [("a\":1,\"b", Canon.Jval.jnum 2)]) =
      Crypto.hash (Canon.Jval.jobj [("a", Canon.Jval.jnum 1), ("b", Canon.Jval.jnum 2)]) ∧
    Canon.normalize (Canon.Jval.jobj [("a\":1,\"b", Canon.Jval.jnum 2)]) ≠
      Canon.normalize (Canon.Jval.jobj [("a", Canon.Jval.jnum 1), ("b", Canon.Jval.jnum 2)]) ∧
    Canon.wf (Canon.Jval.jobj [("a\":1,\"b", Canon.Jval.jnum 2)]) = true ∧
    Canon.wf (Canon.Jval.jobj [("a", Canon.Jval.jnum 1), ("b", Canon.Jval.jnum 2)]) = true := by
  have hcanon : Canon.canonicalize (Canon.Jval.jobj [("a\":1,\"b", Canon.Jval.jnum 2)]) =
      Canon.canonicalize (Canon.Jval.jobj [("a", Canon.Jval.jnum 1), ("b", Canon.Jval.jnum 2)]) := by
    simp +decide [Canon.canonicalize, Canon.canonList, Canon.canonEntries, Canon.serInt,
      Canon.natToDigits, Canon.escString, Canon.escChar, Canon.entryLE,
      List.insertionSort, List.orderedInsert]
  have hn1 : Canon.normalize (Canon.Jval.jobj [("a\":1,\"b", Canon.Jval.jnum 2)]) =
      Canon.Jval.jobj [("a\":1,\"b", Canon.Jval.jnum 2)] := by
    simp [Canon.normalize, Canon.normalizeEntries, List.insertionSort, List.orderedInsert]
  have hn2 : Canon.normalize
        (Canon.Jval.jobj [("a", Canon.Jval.jnum 1), ("b", Canon.Jval.jnum 2)]) =
      Canon.Jval.jobj [("a", Canon.Jval.jnum 1), ("b", Canon.Jval.jnum 2)] := by
    simp +decide [Canon.normalize, Canon.normalizeEntries, Canon.entryLE,
      List.insertionSort, List.orderedInsert]
  refine ⟨hcanon, ?_, ?_, ?_, ?_⟩
  · unfold Crypto.hash
    exact congrArg Crypto.sha256Hex hcanon
  · intro h
    rw [hn1, hn2] at h
    injection h with h'
    simp at h'
  · simp [Canon.wf, Canon.wfEntries, Canon.nodupKeys]
  · simp +decide [Canon.wf, Canon.wfEntries, Canon.nodupKeys]

/-- Witness for the amended C1: the two-entry object written in the orders
(b, a) and (a, b): wellformed, escape-free keys; they are structurally equal
under the canonical form, so the theorem yields identical canonical bytes
and identical hashes. -/
theorem claim_C1_canonicalize_injective_on_escape_free_keys_witness :
    Canon.wf (Canon.Jval.jobj [("b", Canon.Jval.jnum 1), ("a", Canon.Jval.jnull)]) = true ∧
    Canon.safe (Canon.Jval.jobj [("b", Canon.Jval.jnum 1), ("a", Canon.Jval.jnull)]) = true ∧
    Canon.canonicalize (Canon.Jval.jobj [("b", Canon.Jval.jnum 1), ("a", Canon.Jval.jnull)]) =
      Canon.canonicalize (Canon.Jval.jobj [("a", Canon.Jval.jnull), ("b", Canon.Jval.jnum 1)]) ∧
    Crypto.hash (Canon.Jval.jobj [("b", Canon.Jval.jnum 1), ("a", Canon.Jval.jnull)]) =
      Crypto.hash (Canon.Jval.jobj [("a", Canon.Jval.jnull), ("b", Canon.Jval.jnum 1)]) := by
  have hwA : Canon.wf (Canon.Jval.jobj [("b", Canon.Jval.jnum 1), ("a", Canon.Jval.jnull)])
      = true := by
    simp +decide [Canon.wf, Canon.wfEntries, Canon.nodupKeys]
  have hsA : Canon.safe (Canon.Jval.jobj [("b", Canon.Jval.jnum 1), ("a", Canon.Jval.jnull)])
      = true := by
    simp +decide [Canon.safe, Canon.safeEntries, Canon.safeKeyChar]
  have hwB : Canon.wf (Canon.Jval.jobj [("a", Canon.Jval.jnull), ("b", Canon.Jval.jnum 1)])
      = true := by
    simp +decide [Canon.wf, Canon.wfEntries, Canon.nodupKeys]
  have hsB : Canon.safe (Canon.Jval.jobj [("a", Canon.Jval.jnull), ("b", Canon.Jval.jnum 1)])
      = true := by
    simp +decide [Canon.safe, Canon.safeEntries, Canon.safeKeyChar]
  have h := claim_C1_canonicalize_injective_on_escape_free_keys
    (Canon.Jval.jobj [("b", Canon.Jval.jnum 1), ("a", Canon.Jval.jnull)])
    (Canon.Jval.jobj [("a", Canon.Jval.jnull), ("b", Canon.Jval.jnum 1)])
    hwA hsA hwB hsB
  have hperm : [("b", Canon.Jval.jnum 1), ("a", Canon.Jval.jnull)].Perm
      [("a", Canon.Jval.jnull), ("b", Canon.Jval.jnum 1)] :=
    List.Perm.swap _ _ _
  have hnd : Canon.nodupKeys ([("b", Canon.Jval.jnum 1),
      ("a", Canon.Jval.jnull)].map Prod.fst) = true := by
    simp +decide [Canon.nodupKeys]
  obtain ⟨hcanon, hhash⟩ := h.2 _ _ hperm hnd
  exact ⟨hwA, hsA, hcanon, hhash⟩

